import Mathlib

/-!
Verification development for the GargamelCoordinator matchmaking bot.

The definitions below are shallow embeddings of the Python sources:
TheCoordinator.py (queue and matchmaking), Master_Bot.py (match lifecycle
handlers), DotaTalker.py (lobby seating enforcement) and DBFunctions.py
(store gateway and rating math).  Machine reals computed by the Python
code are modelled as real numbers; timestamps as rationals; the SQLite
store as explicit table states together with a journal of executed
write statements (DBFunctions.execute commits after every single
statement, which the journal reflects).
-/

namespace Coordinator

/-- A queued user, from the User class of TheCoordinator.py: discord id,
skill rating and the time the user queued. -/
structure User where
  discordID : Int
  rating : Int
  entranceTime : ℚ
deriving DecidableEq

/-- Default user used to give list indexing a total meaning; all lemmas
only index inside bounds. -/
def dummyUser : User := ⟨0, 0, 0⟩

/-- User.getRating, as the key function fed to findIndexBS. -/
def getRating (u : User) : ℚ := (u.rating : ℚ)

/-- User.getEntranceTime, as the key function fed to findIndexBS. -/
def getEntranceTime (u : User) : ℚ := u.entranceTime

/-- Key of the list element at position i (the Python code only reads
keys of in-bounds indices). -/
def keyAt (kf : User → ℚ) (l : List User) (i : ℕ) : ℚ :=
  kf (l.getD i dummyUser)

/-- The while-loop of Coordinator.findIndexBS: binary search narrowing
[curStart, curEnd) until the bounds meet or an equal key is found.  The
loop index curIdx is always (curStart + curEnd) / 2 at the test, so the
state is just the pair of bounds; fuel bounds the iteration count (the
interval shrinks each round, so fuel = length suffices). -/
def bsLoop (kf : User → ℚ) (k : ℚ) (l : List User) : ℕ → ℕ → ℕ → ℕ × ℕ
  | 0, s, e => (s, e)
  | fuel + 1, s, e =>
    let i := (s + e) / 2
    if s ≠ e ∧ keyAt kf l i ≠ k then
      if keyAt kf l i < k then bsLoop kf k l fuel (i + 1) e
      else bsLoop kf k l fuel s i
    else (s, e)

/-- The downward scan of findIndexBS over the run of equal keys to the
left of the landing index, looking for the user by identity.  The fuel
argument j stands for scanning position j - 1 (0 means index -1, stop). -/
def scanEqLeft (kf : User → ℚ) (k : ℚ) (u : User) (l : List User) : ℕ → Option ℕ
  | 0 => none
  | j + 1 =>
    if keyAt kf l j = k then
      (if l.getD j dummyUser = u then some j else scanEqLeft kf k u l j)
    else none

/-- The upward scan of findIndexBS over the run of equal keys to the
right of the landing index; returns the index of the user if found,
otherwise the first position past the run (which the Python code
returns as the insertion point). -/
def scanEqRight (kf : User → ℚ) (k : ℚ) (u : User) (l : List User) (j : ℕ) : ℕ :=
  if h : j < l.length ∧ keyAt kf l j = k then
    (if l.getD j dummyUser = u then j else scanEqRight kf k u l (j + 1))
  else j
termination_by l.length - j
decreasing_by exact Nat.sub_lt_sub_left h.1 (Nat.lt_succ_self j)

/-- Coordinator.findIndexBS: if user is in the list, the index of the
user; otherwise the index of the lowest entry whose key is higher. -/
def findIndexBS (kf : User → ℚ) (u : User) (l : List User) : ℕ :=
  let p := bsLoop kf (kf u) l l.length 0 l.length
  let i := (p.1 + p.2) / 2
  if i = l.length ∨ keyAt kf l i ≠ kf u ∨ l.getD i dummyUser = u then i
  else
    match scanEqLeft kf (kf u) u l i with
    | some j => j
    | none => scanEqRight kf (kf u) u l (i + 1)

/-- The in-memory queue state of the Coordinator: FIFO list, the list
sorted by rating, and the dict from discord id to User (modelled as an
association list whose first hit is the binding). -/
structure CoordState where
  usersFIFO : List User
  usersByRating : List User
  usersByID : List (Int × User)
deriving DecidableEq

/-- Coordinator.__insert: append the fresh User to usersFIFO, insert it
into usersByRating at the position found by findIndexBS, and (re)bind
the discord id in usersByID.  The wall-clock time of the enqueue is the
explicit parameter now (time.time() in the source). -/
def insertUser (s : CoordState) (discordID rating : Int) (now : ℚ) : CoordState :=
  let newUser : User := ⟨discordID, rating, now⟩
  { usersFIFO := s.usersFIFO ++ [newUser]
    usersByRating :=
      s.usersByRating.insertIdx (findIndexBS getRating newUser s.usersByRating) newUser
    usersByID := (discordID, newUser) :: s.usersByID.filter (fun p => p.1 ≠ discordID) }

/-- Coordinator.__delete on a present User: pop it from usersFIFO via
binary search on entrance time, from usersByRating via binary search on
rating, and drop its binding from usersByID. -/
def deleteUser (s : CoordState) (u : User) : CoordState :=
  { usersFIFO := s.usersFIFO.eraseIdx (findIndexBS getEntranceTime u s.usersFIFO)
    usersByRating := s.usersByRating.eraseIdx (findIndexBS getRating u s.usersByRating)
    usersByID := s.usersByID.filter (fun p => p.1 ≠ u.discordID) }

/-- A user list is sorted (non-decreasingly) by the given key. -/
def SortedBy (kf : User → ℚ) (l : List User) : Prop :=
  List.Sorted (fun a b => kf a ≤ kf b) l

instance (kf : User → ℚ) (l : List User) : Decidable (SortedBy kf l) := by
  unfold SortedBy List.Sorted; infer_instance

/-- Postcondition of the binary-search loop: the bounds still bracket
the key, everything left of the lower bound has a smaller key,
everything right of the upper bound a larger one, and either the bounds
met or the probe index carries exactly the key. -/
def BsPost (kf : User → ℚ) (k : ℚ) (l : List User) (p : ℕ × ℕ) : Prop :=
  p.1 ≤ p.2 ∧ p.2 ≤ l.length ∧
  (∀ j, j < p.1 → keyAt kf l j < k) ∧
  (∀ j, p.2 ≤ j → j < l.length → k < keyAt kf l j) ∧
  (p.1 = p.2 ∨
    ((p.1 + p.2) / 2 < p.2 ∧ p.1 ≤ (p.1 + p.2) / 2 ∧ keyAt kf l ((p.1 + p.2) / 2) = k))

/-- Looking a user up in the usersByID dict. -/
def lookupByID (s : CoordState) (d : Int) : Option User :=
  (s.usersByID.find? (fun q => q.1 == d)).map Prod.snd

/-- The removal loop at the end of Coordinator.__create: delete every
selected user from the queue state, in order. -/
def removeUsers (s : CoordState) (sel : List User) : CoordState :=
  sel.foldl deleteUser s

/-- Well-formedness of the Coordinator queue state: the FIFO list is
sorted by entrance time (users are appended as time advances), the
rating list is sorted by rating, the FIFO list has no duplicate users,
and both lists hold the same users. -/
structure Wf (s : CoordState) : Prop where
  fifoSorted : SortedBy getEntranceTime s.usersFIFO
  ratingSorted : SortedBy getRating s.usersByRating
  fifoNodup : s.usersFIFO.Nodup
  perm : s.usersByRating.Perm s.usersFIFO

/-- The configuration values gameImbalance, findUserPool and the Elo
update read from config.json (the config file itself is not part of the
repository, so the values are parameters of the model): the two norm
exponents, the weighting factor alpha, and the lookAround window. -/
structure Config where
  pNorm : ℕ
  qNorm : ℕ
  alpha : ℝ
  lookAround : ℕ

/-- Coordinator.gameImbalance: the L-qNorm-normed deviation of all
ratings from the overall average, plus alpha times the absolute
difference of the two teams' pNorm power means.  Follows the source
line by line; Python float arithmetic is idealised as real. -/
noncomputable def gameImbalance (cfg : Config) (teamA teamB : List User) : ℝ :=
  let nA := teamA.length
  let nB := teamB.length
  let teamASkills := teamA.map (fun x => (x.rating : ℝ))
  let teamBSkills := teamB.map (fun x => (x.rating : ℝ))
  let avgSkill := (teamASkills.sum + teamBSkills.sum) / ((nA : ℝ) + (nB : ℝ))
  let teamAPoweredSkills := teamASkills.map (fun x => x ^ cfg.pNorm)
  let teamASkillNormed := (teamAPoweredSkills.sum / (nA : ℝ)) ^ ((1 : ℝ) / cfg.pNorm)
  let teamBPoweredSkills := teamBSkills.map (fun x => x ^ cfg.pNorm)
  let teamBSkillNormed := (teamBPoweredSkills.sum / (nB : ℝ)) ^ ((1 : ℝ) / cfg.pNorm)
  let poweredVariances := (teamA ++ teamB).map
    (fun x => |(x.rating : ℝ) - avgSkill| ^ cfg.qNorm)
  let normedVariance :=
    (poweredVariances.sum / ((nA : ℝ) + (nB : ℝ))) ^ ((1 : ℝ) / cfg.qNorm)
  normedVariance + cfg.alpha * |teamASkillNormed - teamBSkillNormed|

/-- Power mean of a team's ratings with exponent p, stated directly as
in the spec: (Σ rᵢᵖ / T)^(1/p). -/
noncomputable def powerMeanTeam (p : ℕ) (team : List User) : ℝ :=
  ((team.map (fun x => (x.rating : ℝ) ^ p)).sum / (team.length : ℝ)) ^ ((1 : ℝ) / p)

/-- The L-q mean deviation of all 2T ratings from the overall average
rating, stated directly. -/
noncomputable def normedDeviation (q : ℕ) (teamA teamB : List User) : ℝ :=
  let avg := ((teamA ++ teamB).map (fun x => (x.rating : ℝ))).sum /
    ((teamA.length : ℝ) + (teamB.length : ℝ))
  ((((teamA ++ teamB).map (fun x => |(x.rating : ℝ) - avg| ^ q)).sum) /
    ((teamA.length : ℝ) + (teamB.length : ℝ))) ^ ((1 : ℝ) / q)

/-- Modelled from the spec (for comparison with the code): partition
score |M_p(A) - M_p(B)| + U_q(A,B) where U_q is the L_q distance
between the two ascending-sorted rating vectors. -/
noncomputable def specPartitionScore (p q : ℕ) (teamA teamB : List User) : ℝ :=
  let sortedA := (teamA.map (fun x => x.rating)).insertionSort (· ≤ ·)
  let sortedB := (teamB.map (fun x => x.rating)).insertionSort (· ≤ ·)
  let u := ((List.zipWith (fun a b => |((a : ℝ)) - ((b : ℝ))| ^ q) sortedA sortedB).sum)
    ^ ((1 : ℝ) / q)
  |powerMeanTeam p teamA - powerMeanTeam p teamB| + u

/-- The candidate game built from one choice of teamA inside
bestGameUsingExactlyThesePlayers: teamB is every user of the input not
in teamA. -/
def candOf (users teamA : List User) : List User × List User :=
  (teamA, users.filter (fun u => !teamA.contains u))

/-- One iteration of the best-score loop of
bestGameUsingExactlyThesePlayers (bestScore starts at infinity, so the
first candidate is always taken). -/
noncomputable def bestStep (cfg : Config) (users : List User)
    (best : Option (List User × List User)) (teamA : List User) :
    Option (List User × List User) :=
  match best with
  | none => some (candOf users teamA)
  | some b =>
    if gameImbalance cfg (candOf users teamA).1 (candOf users teamA).2 <
        gameImbalance cfg b.1 b.2 then
      some (candOf users teamA)
    else some b

/-- Coordinator.bestGameUsingExactlyThesePlayers: try every choice of
len/2 players as teamA and keep the lowest gameImbalance. -/
noncomputable def bestGameUsing (cfg : Config) (users : List User) :
    Option (List User × List User) :=
  (users.sublistsLen (users.length / 2)).foldl (bestStep cfg users) none

/-- Python list slicing l[a:b] for non-negative bounds (slices clamp,
exactly as take/drop do). -/
def pySlice (l : List User) (a b : ℕ) : List User := (l.take b).drop a

/-- Coordinator.findUserPool: a window of about lookAround users around
the given user in usersByRating, excluding the user itself; shortfall
on one side is compensated on the other. -/
def findUserPool (cfg : Config) (s : CoordState) (user : User) : List User :=
  let l := s.usersByRating
  let idx := findIndexBS getRating user l
  let half : ℤ := (cfg.lookAround / 2 : ℕ)
  let preferredStart : ℤ := (idx : ℤ) - half
  let startCut : ℤ := if 0 < preferredStart then 0 else -preferredStart
  let preferredEnd : ℤ := (idx : ℤ) + half
  let endCut : ℤ :=
    if preferredEnd < (l.length : ℤ) then 0 else preferredEnd - (l.length : ℤ) + 1
  let start : ℤ := max (preferredStart - endCut) 0
  let endI : ℤ := min (preferredEnd + startCut) ((l.length : ℤ) - 1)
  pySlice l start.toNat idx ++ pySlice l (idx + 1) (endI + 1).toNat

/-- Outer loop step of Coordinator.__create: build the best game using
a choice of nine pool players plus the longest-waiting user, and keep
the lowest-scoring game.  The source unpacks the result of
bestGameUsingExactlyThesePlayers directly, which cannot be None for a
ten-player input; the none branch is therefore unreachable. -/
noncomputable def createLoopStep (cfg : Config) (theUser : User)
    (best : Option (List User × List User)) (nine : List User) :
    Option (List User × List User) :=
  match bestGameUsing cfg (nine ++ [theUser]) with
  | none => best
  | some g =>
    match best with
    | none => some g
    | some b =>
      if gameImbalance cfg g.1 g.2 < gameImbalance cfg b.1 b.2 then some g else some b

/-- Coordinator.__create: if fewer than ten users are queued, nothing
happens (the source sets waitingForTen and returns).  Otherwise take
the longest-waiting user, search all 9-subsets of their rating pool for
the lowest-imbalance ten-player game, delete the ten chosen users from
the queue and return the two teams.  A pool smaller than nine leaves
bestGame = None and the source crashes unpacking it; that path is
modelled as none. -/
noncomputable def createStep (cfg : Config) (s : CoordState) :
    Option ((List User × List User) × CoordState) :=
  if s.usersFIFO.length < 10 then none
  else
    match ((findUserPool cfg s (s.usersFIFO.getD 0 dummyUser)).sublistsLen 9).foldl
        (createLoopStep cfg (s.usersFIFO.getD 0 dummyUser)) none with
    | none => none
    | some g => some ((g.1, g.2), removeUsers s (g.1 ++ g.2))

/-- Concrete ten-player queue state used as a witness input: ids 1..10,
rating 10·i, entrance time i; both lists in the same (sorted) order. -/
def stateTen : CoordState :=
  { usersFIFO := [⟨1, 10, 1⟩, ⟨2, 20, 2⟩, ⟨3, 30, 3⟩, ⟨4, 40, 4⟩, ⟨5, 50, 5⟩,
      ⟨6, 60, 6⟩, ⟨7, 70, 7⟩, ⟨8, 80, 8⟩, ⟨9, 90, 9⟩, ⟨10, 100, 10⟩]
    usersByRating := [⟨1, 10, 1⟩, ⟨2, 20, 2⟩, ⟨3, 30, 3⟩, ⟨4, 40, 4⟩, ⟨5, 50, 5⟩,
      ⟨6, 60, 6⟩, ⟨7, 70, 7⟩, ⟨8, 80, 8⟩, ⟨9, 90, 9⟩, ⟨10, 100, 10⟩]
    usersByID := [] }

/-- Config with lookAround 20, used with stateTen. -/
def cfgTen : Config := ⟨5, 2, 1, 20⟩

/-- Concrete twenty-player queue state: ids 1..20, rating 10·i,
entrance time i. -/
def stateTwenty : CoordState :=
  { usersFIFO := [⟨1, 10, 1⟩, ⟨2, 20, 2⟩, ⟨3, 30, 3⟩, ⟨4, 40, 4⟩, ⟨5, 50, 5⟩,
      ⟨6, 60, 6⟩, ⟨7, 70, 7⟩, ⟨8, 80, 8⟩, ⟨9, 90, 9⟩, ⟨10, 100, 10⟩,
      ⟨11, 110, 11⟩, ⟨12, 120, 12⟩, ⟨13, 130, 13⟩, ⟨14, 140, 14⟩, ⟨15, 150, 15⟩,
      ⟨16, 160, 16⟩, ⟨17, 170, 17⟩, ⟨18, 180, 18⟩, ⟨19, 190, 19⟩, ⟨20, 200, 20⟩]
    usersByRating := [⟨1, 10, 1⟩, ⟨2, 20, 2⟩, ⟨3, 30, 3⟩, ⟨4, 40, 4⟩, ⟨5, 50, 5⟩,
      ⟨6, 60, 6⟩, ⟨7, 70, 7⟩, ⟨8, 80, 8⟩, ⟨9, 90, 9⟩, ⟨10, 100, 10⟩,
      ⟨11, 110, 11⟩, ⟨12, 120, 12⟩, ⟨13, 130, 13⟩, ⟨14, 140, 14⟩, ⟨15, 150, 15⟩,
      ⟨16, 160, 16⟩, ⟨17, 170, 17⟩, ⟨18, 180, 18⟩, ⟨19, 190, 19⟩, ⟨20, 200, 20⟩]
    usersByID := [] }

/-- Config with lookAround 18, used with stateTwenty. -/
def cfgTwenty : Config := ⟨5, 2, 1, 18⟩

end Coordinator

namespace MasterBot

/-- Python round(): round half to even (banker's rounding), idealised
over the reals. -/
noncomputable def pythonRound (x : ℝ) : ℤ :=
  if Int.fract x = 1 / 2 then (if Even ⌊x⌋ then ⌊x⌋ else ⌊x⌋ + 1) else round x

/-- Python int() on a float: truncation toward zero. -/
noncomputable def pythonInt (x : ℝ) : ℤ :=
  if 0 ≤ x then ⌊x⌋ else -⌊-x⌋

/-- DBFunctions.power_mean: int((Σ r^p / len)^(1/p)). -/
noncomputable def power_mean (ratings : List ℤ) (p : ℕ) : ℤ :=
  pythonInt ((((ratings.map (fun r => (r : ℝ) ^ p)).sum) / (ratings.length : ℝ)) ^
    ((1 : ℝ) / p))

/-- A row of the matches table; winning_team is NULL until the
postgame update fills it. -/
structure MatchRow where
  match_id : ℤ
  lobby_id : ℤ
  state : ℤ
  game_mode : ℤ
  server_region : ℤ
  lobby_type : ℤ
  league_id : ℤ
  winning_team : Option ℤ
deriving DecidableEq

/-- A row of the match_players table. -/
structure PlayerRow where
  match_id : ℤ
  discord_id : ℤ
  team : ℤ
  mmr : ℤ
deriving DecidableEq

/-- A write statement passed to DBFunctions.execute. -/
inductive DBWrite where
  | insertMatch (row : MatchRow)
  | insertMatchPlayer (row : PlayerRow)
  | updateRating (discord_id : ℤ) (newRating : ℤ)
  | finalizeMatch (match_id winning_team state : ℤ)
deriving DecidableEq

/-- The persistent store: the two match tables, the users table
restricted to (discord_id, rating), and the journal of executed write
statements.  DBFunctions.execute commits after every single statement,
so every prefix of the journal corresponds to a committed state. -/
structure DBState where
  matchRows : List MatchRow
  matchPlayers : List PlayerRow
  users : List (ℤ × ℤ)
  journal : List DBWrite
deriving DecidableEq

/-- DBFunctions.execute of one write statement: apply it to the tables
and commit (append to the journal).  insertMatch is INSERT OR IGNORE on
the match_id primary key; finalizeMatch is the UPDATE of winning_team
and state on the rows with the given match_id. -/
def applyWrite (db : DBState) (w : DBWrite) : DBState :=
  match w with
  | .insertMatch row =>
    if db.matchRows.any (fun m => m.match_id == row.match_id) then
      { db with journal := db.journal ++ [w] }
    else
      { db with matchRows := db.matchRows ++ [row], journal := db.journal ++ [w] }
  | .insertMatchPlayer row =>
    { db with matchPlayers := db.matchPlayers ++ [row], journal := db.journal ++ [w] }
  | .updateRating d r =>
    { db with
      users := db.users.map (fun p => if p.1 == d then (p.1, r) else p)
      journal := db.journal ++ [w] }
  | .finalizeMatch mid wt st =>
    { db with
      matchRows := db.matchRows.map (fun m =>
        if m.match_id == mid then { m with winning_team := some wt, state := st } else m)
      journal := db.journal ++ [w] }

/-- DBFunctions.fetch_rating (0 when the player is absent; the source
would return None and crash later, a path the claims never exercise). -/
def fetchRating (db : DBState) (d : ℤ) : ℤ :=
  (((db.users.find? (fun p => p.1 == d)).map Prod.snd)).getD 0

/-- Association-list lookup, the model of Python dict access. -/
def alookup {α : Type} (l : List (ℤ × α)) (k : ℤ) : Option α :=
  (l.find? (fun p => p.1 == k)).map Prod.snd

/-- The fields of the lobby_changed message the two handlers read. -/
structure GameInfo where
  match_id : ℤ
  lobby_id : ℤ
  state : ℤ
  game_mode : ℤ
  server_region : ℤ
  lobby_type : ℤ
  league_id : ℤ
  match_outcome : ℤ
  game_state : ℤ
deriving DecidableEq

/-- The Master_Bot state the two lifecycle handlers touch:
pending_matches, game_map_inverse (game id to the two rosters),
game_map (player to game id) and the store. -/
structure BotState where
  pending_matches : List ℤ
  game_map_inverse : List (ℤ × (List ℤ × List ℤ))
  game_map : List (ℤ × ℤ)
  db : DBState
deriving DecidableEq

/-- Master_Bot.on_game_started: drop the event if the game id is not
pending; otherwise insert the match row, then one row per roster
player (each statement committed separately by DBFunctions.execute),
and finally un-pend the game id. -/
def onGameStarted (b : BotState) (game_id : ℤ) (info : GameInfo) : BotState :=
  if game_id ∈ b.pending_matches then
    let rosters := (alookup b.game_map_inverse game_id).getD ([], [])
    let db1 := applyWrite b.db (.insertMatch
      ⟨info.match_id, info.lobby_id, info.state, info.game_mode,
        info.server_region, info.lobby_type, info.league_id, none⟩)
    let db2 := rosters.1.foldl (fun db d =>
      applyWrite db (.insertMatchPlayer ⟨info.match_id, d, 0, fetchRating db d⟩)) db1
    let db3 := rosters.2.foldl (fun db d =>
      applyWrite db (.insertMatchPlayer ⟨info.match_id, d, 1, fetchRating db d⟩)) db2
    { b with db := db3, pending_matches := b.pending_matches.erase game_id }
  else b

/-- The sequence of write statements on_game_started executes, in
order (player ratings are read before any rating is written, so the
reads all see the initial store). -/
def startedWrites (b : BotState) (game_id : ℤ) (info : GameInfo) : List DBWrite :=
  if game_id ∈ b.pending_matches then
    let rosters := (alookup b.game_map_inverse game_id).getD ([], [])
    DBWrite.insertMatch
      ⟨info.match_id, info.lobby_id, info.state, info.game_mode,
        info.server_region, info.lobby_type, info.league_id, none⟩ ::
      (rosters.1.map (fun d =>
          DBWrite.insertMatchPlayer ⟨info.match_id, d, 0, fetchRating b.db d⟩) ++
       rosters.2.map (fun d =>
          DBWrite.insertMatchPlayer ⟨info.match_id, d, 1, fetchRating b.db d⟩))
  else []

/-- Master_Bot.clear_game: delete the rosters of the game id from
game_map_inverse and game_map.  (The voice-channel cleanup afterwards
may raise, but clear_game swallows its own exceptions and these
deletions come first, so they always take effect.) -/
def clearGame (b : BotState) (game_id : ℤ) : BotState :=
  match alookup b.game_map_inverse game_id with
  | none => b
  | some rosters =>
    { b with
      game_map_inverse := b.game_map_inverse.filter (fun p => p.1 != game_id),
      game_map := b.game_map.filter (fun p =>
        !(rosters.1.contains p.1 || rosters.2.contains p.1)) }

/-- Expected radiant score of the Elo update in on_game_ended. -/
noncomputable def eloExpectedRadiant (rRadiant rDire : ℤ) : ℝ :=
  1 / (1 + (10 : ℝ) ^ (((rDire : ℝ) - (rRadiant : ℝ)) / 3322))

/-- One player's new rating: round(old + K·(s - e)). -/
noncomputable def eloNewRating (k : ℝ) (oldRating : ℤ) (s : ℤ) (e : ℝ) : ℤ :=
  pythonRound ((oldRating : ℝ) + k * ((s : ℝ) - e))

/-- New ratings of a whole team, in roster order. -/
noncomputable def eloTeamNewRatings (k : ℝ) (ratings : List ℤ) (s : ℤ) (e : ℝ) :
    List ℤ :=
  ratings.map (fun r => eloNewRating k r s e)

/-- Master_Bot.on_game_ended with K-factor k (ELO_K in config): if the
game id has rosters, clear the game and apply the Elo update —
s_radiant is 1 exactly when match_outcome = 2, team aggregates are
p = 5 power means of the pre-match ratings — writing each player's new
rating; in every case (also when the rosters are gone and the first
try-block dies on the KeyError) the matches table is then updated with
the raw match_outcome and game_state values. -/
noncomputable def onGameEnded (k : ℝ) (b : BotState) (game_id : ℤ)
    (info : GameInfo) : BotState :=
  let b1 :=
    match alookup b.game_map_inverse game_id with
    | none => b
    | some rosters =>
      let bc := clearGame b game_id
      let radiantRatings := rosters.1.map (fetchRating b.db)
      let direRatings := rosters.2.map (fetchRating b.db)
      let rRadiant := power_mean radiantRatings 5
      let rDire := power_mean direRatings 5
      let sRadiant : ℤ := if info.match_outcome = 2 then 1 else 0
      let eRadiant := eloExpectedRadiant rRadiant rDire
      let db1 := (rosters.1.zip radiantRatings).foldl (fun db (pr : ℤ × ℤ) =>
        applyWrite db (.updateRating pr.1 (eloNewRating k pr.2 sRadiant eRadiant))) bc.db
      let db2 := (rosters.2.zip direRatings).foldl (fun db (pr : ℤ × ℤ) =>
        applyWrite db (.updateRating pr.1
          (eloNewRating k pr.2 (1 - sRadiant) (1 - eRadiant)))) db1
      { bc with db := db2 }
  { b1 with
    db := applyWrite b1.db
      (.finalizeMatch info.match_id info.match_outcome info.game_state) }

/-- Number of finalizeMatch statements in a journal. -/
def countFinalize (j : List DBWrite) : ℕ :=
  j.countP (fun w => match w with | .finalizeMatch _ _ _ => true | _ => false)

/-- Number of updateRating statements in a journal. -/
def countRatingWrites (j : List DBWrite) : ℕ :=
  j.countP (fun w => match w with | .updateRating _ _ => true | _ => false)

/-- Concrete post-game bot state: game 7 with rosters {1} vs {2}, both
players rated 3000, match row 42 already inserted. -/
def bEnded : BotState :=
  { pending_matches := []
    game_map_inverse := [(7, ([1], [2]))]
    game_map := [(1, 7), (2, 7)]
    db := { matchRows := [⟨42, 99, 2, 22, 2, 1, 5, none⟩]
            matchPlayers := []
            users := [(1, 3000), (2, 3000)]
            journal := [] } }

/-- Lobby-ended message with outcome unknown (0) for match 42. -/
def unknownInfo : GameInfo := ⟨42, 99, 3, 22, 2, 1, 5, 0, 6⟩

/-- Lobby-ended message with outcome radiant win (2) for match 42. -/
def radiantWinInfo : GameInfo := ⟨42, 99, 3, 22, 2, 1, 5, 2, 6⟩

/-- Concrete pre-game bot state: game 7 pending with rosters {1} vs
{2}, ratings 1000 and 1100, empty match tables. -/
def bStarted : BotState :=
  { pending_matches := [7]
    game_map_inverse := [(7, ([1], [2]))]
    game_map := [(1, 7), (2, 7)]
    db := { matchRows := []
            matchPlayers := []
            users := [(1, 1000), (2, 1100)]
            journal := [] } }

/-- Lobby-running message for match 42. -/
def startInfo : GameInfo := ⟨42, 99, 2, 22, 2, 1, 5, 0, 5⟩

end MasterBot

namespace DotaTalker

/-- DOTA_GC_TEAM_GOOD_GUYS, the Radiant team constant. -/
def GOOD_GUYS : ℤ := 0

/-- DOTA_GC_TEAM_BAD_GUYS, the Dire team constant. -/
def BAD_GUYS : ℤ := 1

/-- A lobby member as seen by the lobby_changed handler: its Steam id
and the team slot it currently sits on. -/
structure Member where
  mid : ℤ
  team : ℤ
deriving DecidableEq

/-- One iteration of the UI-state seating loop of the lobby_changed
handler: the elif chain either kicks the member (recording its id) or
increments the correct counter.  State is (correct, kicked ids). -/
def seatStep (radiant dire : List ℤ) (s : ℕ × List ℤ) (m : Member) : ℕ × List ℤ :=
  if m.mid ∈ radiant ∧ m.team ≠ GOOD_GUYS then (s.1, s.2 ++ [m.mid])
  else if m.mid ∈ dire ∧ m.team ≠ BAD_GUYS then (s.1, s.2 ++ [m.mid])
  else if (m.mid ∈ radiant ∧ m.team = GOOD_GUYS) ∨ (m.mid ∈ dire ∧ m.team = BAD_GUYS) then
    (s.1 + 1, s.2)
  else if m.team = GOOD_GUYS ∨ m.team = BAD_GUYS then (s.1, s.2 ++ [m.mid])
  else s

/-- The correct counter after the seating loop has run over all
members, starting from correct = 0 and no kicks. -/
def correctCount (radiant dire : List ℤ) (members : List Member) : ℕ :=
  (members.foldl (seatStep radiant dire) (0, [])).1

/-- The handler launches the practice lobby exactly when
correct == len(radiant + dire). -/
def uiLaunch (radiant dire : List ℤ) (members : List Member) : Bool :=
  correctCount radiant dire members == (radiant ++ dire).length

/-- The exact condition under which the elif chain increments the
correct counter for a member. -/
def Seated (radiant dire : List ℤ) (m : Member) : Prop :=
  ¬(m.mid ∈ radiant ∧ m.team ≠ GOOD_GUYS) ∧
  ¬(m.mid ∈ dire ∧ m.team ≠ BAD_GUYS) ∧
  ((m.mid ∈ radiant ∧ m.team = GOOD_GUYS) ∨ (m.mid ∈ dire ∧ m.team = BAD_GUYS))

instance (radiant dire : List ℤ) : DecidablePred (Seated radiant dire) := fun m => by
  unfold Seated
  infer_instance

end DotaTalker

namespace Coordinator

theorem sortedBy_keyAt_mono {kf : User → ℚ} {l : List User} (h : SortedBy kf l)
    {i j : ℕ} (hij : i ≤ j) (hj : j < l.length) :
    keyAt kf l i ≤ keyAt kf l j := by
  rcases Nat.lt_or_ge i j with hlt | hge
  · have hi : i < l.length := lt_trans hlt hj
    have hrel := List.Sorted.rel_get_of_lt h (a := ⟨i, hi⟩) (b := ⟨j, hj⟩) hlt
    unfold keyAt
    rw [List.getD_eq_getElem l dummyUser hi, List.getD_eq_getElem l dummyUser hj]
    simpa [List.get_eq_getElem] using hrel
  · have : i = j := le_antisymm hij hge
    subst this; exact le_refl _

theorem bsLoop_succ_eq (kf : User → ℚ) (k : ℚ) (l : List User) (n s e : ℕ) :
    bsLoop kf k l (n + 1) s e =
      if s ≠ e ∧ keyAt kf l ((s + e) / 2) ≠ k then
        (if keyAt kf l ((s + e) / 2) < k then bsLoop kf k l n ((s + e) / 2 + 1) e
         else bsLoop kf k l n s ((s + e) / 2))
      else (s, e) := rfl

theorem bsLoop_post (kf : User → ℚ) (k : ℚ) (l : List User) (hs : SortedBy kf l) :
    ∀ fuel s e, s ≤ e → e ≤ l.length → e - s ≤ fuel →
      (∀ j, j < s → keyAt kf l j < k) →
      (∀ j, e ≤ j → j < l.length → k < keyAt kf l j) →
      BsPost kf k l (bsLoop kf k l fuel s e) := by
  intro fuel
  induction fuel with
  | zero =>
    intro s e hse hel hfe hlo hhi
    have he : s = e := by omega
    subst he
    exact ⟨le_refl _, hel, hlo, hhi, Or.inl rfl⟩
  | succ n ih =>
    intro s e hse hel hfe hlo hhi
    rw [bsLoop_succ_eq]
    by_cases h1 : s = e
    · rw [if_neg (by simp [h1])]
      subst h1
      exact ⟨le_refl _, hel, hlo, hhi, Or.inl rfl⟩
    · have hslt : s < e := lt_of_le_of_ne hse h1
      have his : s ≤ (s + e) / 2 := by omega
      have hie : (s + e) / 2 < e := by omega
      have hilen : (s + e) / 2 < l.length := lt_of_lt_of_le hie hel
      by_cases h2 : keyAt kf l ((s + e) / 2) = k
      · rw [if_neg (by simp [h2])]
        exact ⟨hse, hel, hlo, hhi, Or.inr ⟨hie, his, h2⟩⟩
      · rw [if_pos ⟨h1, h2⟩]
        by_cases h3 : keyAt kf l ((s + e) / 2) < k
        · rw [if_pos h3]
          refine ih ((s + e) / 2 + 1) e (by omega) hel (by omega) ?_ hhi
          intro j hj
          exact lt_of_le_of_lt (sortedBy_keyAt_mono hs (by omega) hilen) h3
        · rw [if_neg h3]
          have h4 : k < keyAt kf l ((s + e) / 2) :=
            lt_of_le_of_ne (le_of_not_lt h3) (Ne.symm h2)
          refine ih s ((s + e) / 2) his (le_of_lt hilen) (by omega) ?_ ?_
          · intro j hj
            exact hlo j hj
          · intro j hj hjlen
            exact lt_of_lt_of_le h4 (sortedBy_keyAt_mono hs hj hjlen)

theorem bsLoop_post_init (kf : User → ℚ) (k : ℚ) (l : List User) (hs : SortedBy kf l) :
    BsPost kf k l (bsLoop kf k l l.length 0 l.length) := by
  refine bsLoop_post kf k l hs l.length 0 l.length (Nat.zero_le _) (le_refl _) (by omega) ?_ ?_
  · intro j hj; omega
  · intro j hj hjlen; omega

theorem scanEqLeft_some {kf : User → ℚ} {k : ℚ} {u : User} {l : List User} :
    ∀ {j r : ℕ}, scanEqLeft kf k u l j = some r →
      r < j ∧ l.getD r dummyUser = u ∧ keyAt kf l r = k := by
  intro j
  induction j with
  | zero => intro r h; simp [scanEqLeft] at h
  | succ m ih =>
    intro r h
    rw [scanEqLeft] at h
    by_cases h1 : keyAt kf l m = k
    · rw [if_pos h1] at h
      by_cases h2 : l.getD m dummyUser = u
      · rw [if_pos h2] at h
        have : m = r := by injection h
        subst this
        exact ⟨Nat.lt_succ_self m, h2, h1⟩
      · rw [if_neg h2] at h
        obtain ⟨hr, hu, hk⟩ := ih h
        exact ⟨Nat.lt_succ_of_lt hr, hu, hk⟩
    · rw [if_neg h1] at h
      exact absurd h (by simp)

theorem scanEqLeft_finds {kf : User → ℚ} {k : ℚ} {u : User} {l : List User} :
    ∀ {j r : ℕ}, r < j → l.getD r dummyUser = u →
      (∀ t, r ≤ t → t < j → keyAt kf l t = k) →
      ∃ r', scanEqLeft kf k u l j = some r' := by
  intro j
  induction j with
  | zero => intro r hr; omega
  | succ m ih =>
    intro r hr hu hrun
    have hkm : keyAt kf l m = k := hrun m (by omega) (Nat.lt_succ_self m)
    rw [scanEqLeft, if_pos hkm]
    by_cases h2 : l.getD m dummyUser = u
    · exact ⟨m, by rw [if_pos h2]⟩
    · have hrm : r < m := by
        rcases Nat.lt_or_ge r m with h | h
        · exact h
        · have : r = m := by omega
          subst this; exact absurd hu h2
      obtain ⟨r', hr'⟩ := ih hrm hu (fun t ht htm => hrun t ht (by omega))
      exact ⟨r', by rw [if_neg h2]; exact hr'⟩

theorem scanEqRight_spec (kf : User → ℚ) (k : ℚ) (u : User) (l : List User) :
    ∀ fuel j, j ≤ l.length → l.length - j ≤ fuel →
      (j ≤ scanEqRight kf k u l j ∧ scanEqRight kf k u l j ≤ l.length ∧
       (∀ t, j ≤ t → t < scanEqRight kf k u l j →
          keyAt kf l t = k ∧ l.getD t dummyUser ≠ u) ∧
       ((scanEqRight kf k u l j < l.length ∧ keyAt kf l (scanEqRight kf k u l j) = k ∧
         l.getD (scanEqRight kf k u l j) dummyUser = u) ∨
        ¬(scanEqRight kf k u l j < l.length ∧ keyAt kf l (scanEqRight kf k u l j) = k))) := by
  intro fuel
  induction fuel with
  | zero =>
    intro j hj hf
    have hje : j = l.length := by omega
    rw [scanEqRight, dif_neg (by omega)]
    exact ⟨le_refl _, hj, fun t ht htj => absurd (lt_of_le_of_lt ht htj) (lt_irrefl j),
      Or.inr (by omega)⟩
  | succ n ih =>
    intro j hj hf
    rw [scanEqRight]
    by_cases h1 : j < l.length ∧ keyAt kf l j = k
    · rw [dif_pos h1]
      by_cases h2 : l.getD j dummyUser = u
      · rw [if_pos h2]
        exact ⟨le_refl _, le_of_lt h1.1,
          fun t ht htj => absurd (lt_of_le_of_lt ht htj) (lt_irrefl j),
          Or.inl ⟨h1.1, h1.2, h2⟩⟩
      · rw [if_neg h2]
        obtain ⟨ha, hb, hc, hd⟩ := ih (j + 1) h1.1 (by omega)
        refine ⟨by omega, hb, ?_, hd⟩
        intro t ht htr
        rcases Nat.lt_or_ge t (j + 1) with h | h
        · have : t = j := by omega
          subst this
          exact ⟨h1.2, h2⟩
        · exact hc t h htr
    · rw [dif_neg h1]
      exact ⟨le_refl _, hj, fun t ht htj => absurd (lt_of_le_of_lt ht htj) (lt_irrefl j),
        Or.inr h1⟩

theorem scanEqRight_finds {kf : User → ℚ} {k : ℚ} {u : User} {l : List User}
    {j t : ℕ} (hjt : j ≤ t) (ht : t < l.length) (hu : l.getD t dummyUser = u)
    (hk : ∀ t', j ≤ t' → t' ≤ t → keyAt kf l t' = k) :
    scanEqRight kf k u l j < l.length ∧
      l.getD (scanEqRight kf k u l j) dummyUser = u := by
  obtain ⟨ha, hb, hc, hd⟩ :=
    scanEqRight_spec kf k u l (l.length - j) j (by omega) (le_refl _)
  set m := scanEqRight kf k u l j with hm
  have hmt : m ≤ t := by
    by_contra hcon
    exact (hc t hjt (by omega)).2 hu
  have hmlen : m < l.length := lt_of_le_of_lt hmt ht
  have hmk : keyAt kf l m = k := hk m ha hmt
  rcases hd with ⟨_, _, hfound⟩ | hmiss
  · exact ⟨hmlen, hfound⟩
  · exact absurd ⟨hmlen, hmk⟩ hmiss

theorem findIndexBS_found {kf : User → ℚ} {u : User} {l : List User}
    (hs : SortedBy kf l) (hmem : u ∈ l) :
    findIndexBS kf u l < l.length ∧ l.getD (findIndexBS kf u l) dummyUser = u := by
  obtain ⟨t, htlen, htval⟩ := List.mem_iff_getElem.1 hmem
  have htD : l.getD t dummyUser = u := by
    rw [List.getD_eq_getElem l dummyUser htlen, htval]
  have htk : keyAt kf l t = kf u := by unfold keyAt; rw [htD]
  obtain ⟨hle, hlen2, hlo, hhi, hdisj⟩ := bsLoop_post_init kf (kf u) l hs
  set p := bsLoop kf (kf u) l l.length 0 l.length with hp
  set i := (p.1 + p.2) / 2 with hi
  have hFI : findIndexBS kf u l =
      (if i = l.length ∨ keyAt kf l i ≠ kf u ∨ l.getD i dummyUser = u then i
       else
         match scanEqLeft kf (kf u) u l i with
         | some j => j
         | none => scanEqRight kf (kf u) u l (i + 1)) := rfl
  rw [hFI]
  rcases hdisj with heq | ⟨hie, hsi, hkey⟩
  · exfalso
    rcases Nat.lt_or_ge t p.1 with h | h
    · exact absurd htk (ne_of_lt (hlo t h))
    · exact absurd htk (ne_of_gt (hhi t (heq ▸ h) htlen))
  · have hilen : i < l.length := lt_of_lt_of_le hie hlen2
    by_cases hcase : i = l.length ∨ keyAt kf l i ≠ kf u ∨ l.getD i dummyUser = u
    · rw [if_pos hcase]
      rcases hcase with h | h | h
      · omega
      · exact absurd hkey h
      · exact ⟨hilen, h⟩
    · rw [if_neg hcase]
      push_neg at hcase
      obtain ⟨hne1, hne2, hne3⟩ := hcase
      have htne : t ≠ i := by intro hcon; subst hcon; exact hne3 htD
      rcases Nat.lt_or_ge t i with hti | hti
      · have hrun : ∀ m, t ≤ m → m < i → keyAt kf l m = kf u := by
          intro m hm1 hm2
          have h1 : kf u ≤ keyAt kf l m := by
            rw [← htk]; exact sortedBy_keyAt_mono hs hm1 (by omega)
          have h2 : keyAt kf l m ≤ keyAt kf l i := sortedBy_keyAt_mono hs (by omega) hilen
          rw [hne2] at h2
          exact le_antisymm h2 h1
        obtain ⟨r', hr'⟩ := scanEqLeft_finds hti htD hrun
        rw [hr']
        obtain ⟨hra, hrb, _⟩ := scanEqLeft_some hr'
        show r' < l.length ∧ l.getD r' dummyUser = u
        exact ⟨by omega, hrb⟩
      · have hti' : i < t := lt_of_le_of_ne hti (Ne.symm htne)
        cases hsl : scanEqLeft kf (kf u) u l i with
        | some r =>
          obtain ⟨hra, hrb, _⟩ := scanEqLeft_some hsl
          show r < l.length ∧ l.getD r dummyUser = u
          exact ⟨by omega, hrb⟩
        | none =>
          show scanEqRight kf (kf u) u l (i + 1) < l.length ∧
            l.getD (scanEqRight kf (kf u) u l (i + 1)) dummyUser = u
          have hrun : ∀ m, i + 1 ≤ m → m ≤ t → keyAt kf l m = kf u := by
            intro m hm1 hm2
            have h1 : keyAt kf l i ≤ keyAt kf l m :=
              sortedBy_keyAt_mono hs (by omega) (by omega)
            have h2 : keyAt kf l m ≤ keyAt kf l t := sortedBy_keyAt_mono hs hm2 htlen
            rw [hne2] at h1; rw [htk] at h2
            exact le_antisymm h2 h1
          exact scanEqRight_finds (by omega) htlen htD hrun

theorem findIndexBS_bounds {kf : User → ℚ} (u : User) {l : List User}
    (hs : SortedBy kf l) :
    findIndexBS kf u l ≤ l.length ∧
      (∀ j, j < findIndexBS kf u l → keyAt kf l j ≤ kf u) ∧
      (∀ j, findIndexBS kf u l ≤ j → j < l.length → kf u ≤ keyAt kf l j) := by
  obtain ⟨hle, hlen2, hlo, hhi, hdisj⟩ := bsLoop_post_init kf (kf u) l hs
  set p := bsLoop kf (kf u) l l.length 0 l.length with hp
  set i := (p.1 + p.2) / 2 with hi
  have hFI : findIndexBS kf u l =
      (if i = l.length ∨ keyAt kf l i ≠ kf u ∨ l.getD i dummyUser = u then i
       else
         match scanEqLeft kf (kf u) u l i with
         | some j => j
         | none => scanEqRight kf (kf u) u l (i + 1)) := rfl
  have hip2 : i ≤ p.2 := by omega
  -- the generic fact: any in-range index whose key is exactly kf u is a
  -- valid split point
  have generic : ∀ q, q < l.length → keyAt kf l q = kf u →
      (q ≤ l.length ∧ (∀ j, j < q → keyAt kf l j ≤ kf u) ∧
        (∀ j, q ≤ j → j < l.length → kf u ≤ keyAt kf l j)) := by
    intro q hq hqk
    refine ⟨le_of_lt hq, ?_, ?_⟩
    · intro j hj
      rw [← hqk]; exact sortedBy_keyAt_mono hs (le_of_lt hj) hq
    · intro j hj hjlen
      rw [← hqk]; exact sortedBy_keyAt_mono hs hj hjlen
  rcases hdisj with heq | ⟨hie, hsi, hkey⟩
  · -- bounds met at p.1 = p.2 = i
    have hieq : i = p.1 := by omega
    have hcond : i = l.length ∨ keyAt kf l i ≠ kf u ∨ l.getD i dummyUser = u := by
      rcases Nat.lt_or_ge i l.length with h | h
      · exact Or.inr (Or.inl (ne_of_gt (hhi i (by omega) h)))
      · exact Or.inl (by omega)
    rw [hFI, if_pos hcond]
    refine ⟨by omega, ?_, ?_⟩
    · intro j hj
      exact le_of_lt (hlo j (by omega))
    · intro j hj hjlen
      exact le_of_lt (hhi j (by omega) hjlen)
  · have hilen : i < l.length := lt_of_lt_of_le hie hlen2
    by_cases hcase : i = l.length ∨ keyAt kf l i ≠ kf u ∨ l.getD i dummyUser = u
    · rw [hFI, if_pos hcase]
      exact generic i hilen hkey
    · rw [hFI, if_neg hcase]
      push_neg at hcase
      cases hsl : scanEqLeft kf (kf u) u l i with
      | some r =>
        obtain ⟨hra, _, hrk⟩ := scanEqLeft_some hsl
        exact generic r (by omega) hrk
      | none =>
        obtain ⟨ha, hb, hc, hd⟩ :=
          scanEqRight_spec kf (kf u) u l (l.length - (i + 1)) (i + 1) (by omega) (le_refl _)
        set m := scanEqRight kf (kf u) u l (i + 1) with hmm
        rcases hd with ⟨hmlen, hmk, _⟩ | hmiss
        · exact generic m hmlen hmk
        · refine ⟨hb, ?_, ?_⟩
          · intro j hj
            rcases Nat.lt_or_ge j (i + 1) with h | h
            · rw [← hkey]
              exact sortedBy_keyAt_mono hs (by omega) hilen
            · exact le_of_eq (hc j h hj).1
          · intro j hj hjlen
            have hmlen : m < l.length := lt_of_le_of_lt hj hjlen
            have h1 : keyAt kf l i ≤ keyAt kf l m :=
              sortedBy_keyAt_mono hs (by omega) hmlen
            rw [hkey] at h1
            have h2 : keyAt kf l m ≠ kf u := fun hcon => hmiss ⟨hmlen, hcon⟩
            have h3 : kf u < keyAt kf l m := lt_of_le_of_ne h1 (Ne.symm h2)
            exact le_of_lt (lt_of_lt_of_le h3 (sortedBy_keyAt_mono hs hj hjlen))

theorem sortedBy_insertIdx {kf : User → ℚ} {l : List User} (hs : SortedBy kf l)
    {u : User} {pos : ℕ} (hpos : pos ≤ l.length)
    (hlo : ∀ j, j < pos → keyAt kf l j ≤ kf u)
    (hhi : ∀ j, pos ≤ j → j < l.length → kf u ≤ keyAt kf l j) :
    SortedBy kf (l.insertIdx pos u) := by
  have hlen : (l.insertIdx pos u).length = l.length + 1 := List.length_insertIdx _ _ hpos
  have hval : ∀ m, m < l.length + 1 →
      keyAt kf (l.insertIdx pos u) m =
        (if m < pos then keyAt kf l m else if m = pos then kf u
         else keyAt kf l (m - 1)) := by
    intro m hm
    unfold keyAt
    by_cases h1 : m < pos
    · rw [if_pos h1]
      have hmlen : m < l.length := by omega
      rw [List.getD_eq_getElem _ _ (show m < (l.insertIdx pos u).length by omega),
        List.getD_eq_getElem _ _ hmlen,
        List.getElem_insertIdx_of_lt l u pos m h1 hmlen]
    · rw [if_neg h1]
      by_cases h2 : m = pos
      · rw [if_pos h2]; subst h2
        rw [List.getD_eq_getElem _ _ (show m < (l.insertIdx m u).length by omega),
          List.getElem_insertIdx_self l u m hpos]
      · rw [if_neg h2]
        have h3 : pos < m := by omega
        have hm1len : m - 1 < l.length := by omega
        have h4 : pos + (m - pos - 1) < l.length := by omega
        have e1 := List.getElem_insertIdx_add_succ l u pos (m - pos - 1) h4
          (by rw [hlen]; omega)
        rw [List.getD_eq_getElem _ _ (show m < (l.insertIdx pos u).length by
            rw [hlen]; omega),
          List.getD_eq_getElem _ _ hm1len]
        have hb1 : m < (l.insertIdx pos u).length := by rw [hlen]; omega
        have hb2 : pos + (m - pos - 1) + 1 < (l.insertIdx pos u).length := by
          rw [hlen]; omega
        have e2 : (l.insertIdx pos u)[m] = (l.insertIdx pos u)[pos + (m - pos - 1) + 1] := by
          congr 1; omega
        have e3 : l[pos + (m - pos - 1)] = l[m - 1] := by
          congr 1; omega
        rw [e2, e1, e3]
  unfold SortedBy List.Sorted
  rw [List.pairwise_iff_getElem]
  intro a b ha hb hab
  have ka : kf ((l.insertIdx pos u)[a]) = keyAt kf (l.insertIdx pos u) a := by
    unfold keyAt; rw [List.getD_eq_getElem _ _ ha]
  have kb : kf ((l.insertIdx pos u)[b]) = keyAt kf (l.insertIdx pos u) b := by
    unfold keyAt; rw [List.getD_eq_getElem _ _ hb]
  show kf ((l.insertIdx pos u)[a]) ≤ kf ((l.insertIdx pos u)[b])
  rw [ka, kb, hval a (by omega), hval b (by omega)]
  split_ifs with g1 g2 g3 g4 g5 g6 g7 <;>
    first
      | exact sortedBy_keyAt_mono hs (by omega) (by omega)
      | exact hlo _ (by omega)
      | exact hhi _ (by omega) (by omega)
      | exact le_refl _

theorem findIndexBS_insert_sorted {kf : User → ℚ} (u : User) {l : List User}
    (hs : SortedBy kf l) : SortedBy kf (l.insertIdx (findIndexBS kf u l) u) := by
  obtain ⟨h1, h2, h3⟩ := findIndexBS_bounds u hs
  exact sortedBy_insertIdx hs h1 h2 h3

theorem findIndexBS_eraseIdx {kf : User → ℚ} {u : User} {l : List User}
    (hs : SortedBy kf l) (hnd : l.Nodup) (hmem : u ∈ l) :
    l.eraseIdx (findIndexBS kf u l) = l.erase u := by
  obtain ⟨hlt, hval⟩ := @findIndexBS_found kf u l hs hmem
  have hget : l[findIndexBS kf u l] = u := by
    rw [← List.getD_eq_getElem l dummyUser hlt, hval]
  have h2 := List.Nodup.erase_getElem hnd (findIndexBS kf u l) hlt
  rw [hget] at h2
  exact h2.symm

theorem sortedBy_eraseIdx {kf : User → ℚ} {l : List User} (h : SortedBy kf l) (i : ℕ) :
    SortedBy kf (l.eraseIdx i) :=
  List.Pairwise.sublist (List.eraseIdx_sublist l i) h

theorem deleteUser_fifo {s : CoordState} (hWf : Wf s) {u : User}
    (hu : u ∈ s.usersFIFO) :
    (deleteUser s u).usersFIFO = s.usersFIFO.erase u ∧
      (deleteUser s u).usersByRating = s.usersByRating.erase u := by
  constructor
  · exact findIndexBS_eraseIdx hWf.fifoSorted hWf.fifoNodup hu
  · exact findIndexBS_eraseIdx hWf.ratingSorted (hWf.perm.nodup_iff.2 hWf.fifoNodup)
      (hWf.perm.mem_iff.2 hu)

theorem deleteUser_wf {s : CoordState} (hWf : Wf s) {u : User}
    (hu : u ∈ s.usersFIFO) : Wf (deleteUser s u) := by
  obtain ⟨h1, h2⟩ := deleteUser_fifo hWf hu
  refine ⟨?_, ?_, ?_, ?_⟩
  · rw [h1]; exact List.Pairwise.sublist (List.erase_sublist u s.usersFIFO) hWf.fifoSorted
  · rw [h2]; exact List.Pairwise.sublist (List.erase_sublist u s.usersByRating)
      hWf.ratingSorted
  · rw [h1]; exact hWf.fifoNodup.sublist (List.erase_sublist u s.usersFIFO)
  · rw [h1, h2]; exact hWf.perm.erase u

theorem removeUsers_filter :
    ∀ (sel : List User) (s : CoordState), Wf s → sel.Nodup →
      (∀ u ∈ sel, u ∈ s.usersFIFO) →
      (removeUsers s sel).usersFIFO = s.usersFIFO.filter (fun v => !sel.contains v) ∧
      (removeUsers s sel).usersByRating =
        s.usersByRating.filter (fun v => !sel.contains v) ∧
      Wf (removeUsers s sel) := by
  intro sel
  induction sel with
  | nil =>
    intro s hWf _ _
    refine ⟨?_, ?_, hWf⟩ <;> simp [removeUsers]
  | cons u rest ih =>
    intro s hWf hnd hmem
    have hu : u ∈ s.usersFIFO := hmem u (List.mem_cons_self u rest)
    have hstep : removeUsers s (u :: rest) = removeUsers (deleteUser s u) rest := rfl
    obtain ⟨h1, h2⟩ := deleteUser_fifo hWf hu
    have hWf' : Wf (deleteUser s u) := deleteUser_wf hWf hu
    have hnd' : rest.Nodup := (List.nodup_cons.1 hnd).2
    have hun : u ∉ rest := (List.nodup_cons.1 hnd).1
    have hmem' : ∀ v ∈ rest, v ∈ (deleteUser s u).usersFIFO := by
      intro v hv
      rw [h1]
      have hneq : v ≠ u := fun hcon => hun (hcon ▸ hv)
      exact (List.mem_erase_of_ne hneq).2 (hmem v (List.mem_cons_of_mem u hv))
    obtain ⟨g1, g2, g3⟩ := ih (deleteUser s u) hWf' hnd' hmem'
    rw [hstep]
    have heF : (deleteUser s u).usersFIFO = s.usersFIFO.filter (fun v => (v != u)) := by
      rw [h1, hWf.fifoNodup.erase_eq_filter]
    have heR : (deleteUser s u).usersByRating =
        s.usersByRating.filter (fun v => (v != u)) := by
      rw [h2, (hWf.perm.nodup_iff.2 hWf.fifoNodup).erase_eq_filter]
    have hpred : ∀ v : User, (!rest.contains v && (v != u)) =
        !(u :: rest).contains v := by
      intro v
      by_cases hvu : v = u
      · subst hvu
        simp [List.contains_cons]
      · by_cases hvr : v ∈ rest
        · simp [List.contains_cons, hvu, hvr]
        · simp [List.contains_cons, hvu, hvr, Ne.symm hvu]
    refine ⟨?_, ?_, g3⟩
    · rw [g1, heF, List.filter_filter]
      exact List.filter_congr (fun v _ => hpred v)
    · rw [g2, heR, List.filter_filter]
      exact List.filter_congr (fun v _ => hpred v)

theorem removeUsers_sorted_rating :
    ∀ (sel : List User) (s : CoordState),
      SortedBy getRating s.usersByRating →
      SortedBy getRating (removeUsers s sel).usersByRating := by
  intro sel
  induction sel with
  | nil => intro s h; exact h
  | cons u rest ih =>
    intro s h
    exact ih (deleteUser s u) (sortedBy_eraseIdx h _)

/-- C2 counterexample: starting from the empty queue, enqueueing player
5 (rating 1500, join-time 0) and then enqueueing player 5 again (rating
1600, join-time 1) leaves TWO entries for player 5 in the FIFO queue,
not one: Coordinator.__insert never checks for presence, so re-enqueue
is not a no-op. -/
theorem C2_counterexample :
    ((insertUser (insertUser ⟨[], [], []⟩ 5 1500 0) 5 1600 1).usersFIFO.countP
      (fun u => u.discordID == 5)) = 2 := by decide

/-- C2 (amended): re-enqueueing a player already present in the queue
is NOT a no-op: Coordinator.__insert unconditionally appends a second
entry, so the queue gains one more entry for that player each time, and
the usersByID dict is overwritten to point at the newest entry (with
the new rating and new join-time), not the first one. -/
theorem C2_amended (s : CoordState) (p r r' : Int) (t t' : ℚ) :
    ((insertUser (insertUser s p r t) p r' t').usersFIFO.countP
        (fun u => u.discordID == p)) =
      s.usersFIFO.countP (fun u => u.discordID == p) + 2 ∧
    lookupByID (insertUser (insertUser s p r t) p r' t') p = some ⟨p, r', t'⟩ := by
  constructor
  · have e1 : (insertUser (insertUser s p r t) p r' t').usersFIFO =
        (s.usersFIFO ++ [⟨p, r, t⟩]) ++ [⟨p, r', t'⟩] := rfl
    rw [e1, List.countP_append, List.countP_append]
    simp
  · have e2 : (insertUser (insertUser s p r t) p r' t').usersByID =
        (p, (⟨p, r', t'⟩ : User)) ::
          ((insertUser s p r t).usersByID.filter (fun q => q.1 ≠ p)) := rfl
    unfold lookupByID
    rw [e2]
    simp

/-- C10: the usersByRating list stays sorted in non-decreasing rating
order across every queue operation of the Coordinator: inserting a new
player (insertion at the index chosen by findIndexBS), deleting a
player (eraseIdx), and the sequence of deletions performed while
creating a game; hence the binary search always runs on a sorted list. -/
theorem C10_usersByRating_sorted (s : CoordState)
    (hsort : SortedBy getRating s.usersByRating) :
    (∀ d r t, SortedBy getRating (insertUser s d r t).usersByRating) ∧
    (∀ u, SortedBy getRating (deleteUser s u).usersByRating) ∧
    (∀ sel, SortedBy getRating (removeUsers s sel).usersByRating) := by
  refine ⟨?_, ?_, ?_⟩
  · intro d r t
    exact findIndexBS_insert_sorted _ hsort
  · intro u
    exact sortedBy_eraseIdx hsort _
  · intro sel
    exact removeUsers_sorted_rating sel s hsort

/-- Witness for C10 at a concrete two-player queue state. -/
theorem C10_witness :
    SortedBy getRating
        (⟨[⟨1, 10, 0⟩, ⟨2, 20, 1⟩], [⟨1, 10, 0⟩, ⟨2, 20, 1⟩], []⟩ :
          CoordState).usersByRating ∧
      ((∀ d r t, SortedBy getRating
          (insertUser ⟨[⟨1, 10, 0⟩, ⟨2, 20, 1⟩], [⟨1, 10, 0⟩, ⟨2, 20, 1⟩], []⟩
            d r t).usersByRating) ∧
       (∀ u, SortedBy getRating
          (deleteUser ⟨[⟨1, 10, 0⟩, ⟨2, 20, 1⟩], [⟨1, 10, 0⟩, ⟨2, 20, 1⟩], []⟩
            u).usersByRating) ∧
       (∀ sel, SortedBy getRating
          (removeUsers ⟨[⟨1, 10, 0⟩, ⟨2, 20, 1⟩], [⟨1, 10, 0⟩, ⟨2, 20, 1⟩], []⟩
            sel).usersByRating)) :=
  ⟨by decide, C10_usersByRating_sorted _ (by decide)⟩

theorem bestStep_none_eq (cfg : Config) (users c : List User) :
    bestStep cfg users none c = some (candOf users c) := rfl

theorem bestStep_some_eq (cfg : Config) (users c : List User)
    (b : List User × List User) :
    bestStep cfg users (some b) c =
      if gameImbalance cfg (candOf users c).1 (candOf users c).2 <
          gameImbalance cfg b.1 b.2 then some (candOf users c) else some b := rfl

theorem bestStep_fold_some (cfg : Config) (users : List User) :
    ∀ (cands : List (List User)) (g0 : List User × List User),
      ∃ r, cands.foldl (bestStep cfg users) (some g0) = some r ∧
        gameImbalance cfg r.1 r.2 ≤ gameImbalance cfg g0.1 g0.2 := by
  intro cands
  induction cands with
  | nil => intro g0; exact ⟨g0, rfl, le_refl _⟩
  | cons c rest ih =>
    intro g0
    rw [List.foldl_cons, bestStep_some_eq]
    by_cases h : gameImbalance cfg (candOf users c).1 (candOf users c).2 <
        gameImbalance cfg g0.1 g0.2
    · rw [if_pos h]
      obtain ⟨r, hr, hle⟩ := ih (candOf users c)
      exact ⟨r, hr, le_of_lt (lt_of_le_of_lt hle h)⟩
    · rw [if_neg h]
      exact ih g0

theorem bestStep_fold_le (cfg : Config) (users : List User) :
    ∀ (cands : List (List User)) (acc : Option (List User × List User)),
      ∀ tA ∈ cands, ∃ r, cands.foldl (bestStep cfg users) acc = some r ∧
        gameImbalance cfg r.1 r.2 ≤
          gameImbalance cfg (candOf users tA).1 (candOf users tA).2 := by
  intro cands
  induction cands with
  | nil => intro acc tA h; exact absurd h (List.not_mem_nil tA)
  | cons c rest ih =>
    intro acc tA htA
    have hacc' : ∃ g', bestStep cfg users acc c = some g' ∧
        gameImbalance cfg g'.1 g'.2 ≤
          gameImbalance cfg (candOf users c).1 (candOf users c).2 := by
      cases acc with
      | none => exact ⟨candOf users c, rfl, le_refl _⟩
      | some b =>
        rw [bestStep_some_eq]
        by_cases h : gameImbalance cfg (candOf users c).1 (candOf users c).2 <
            gameImbalance cfg b.1 b.2
        · rw [if_pos h]; exact ⟨candOf users c, rfl, le_refl _⟩
        · rw [if_neg h]; exact ⟨b, rfl, le_of_not_lt h⟩
    obtain ⟨g', hg', hgle⟩ := hacc'
    rw [List.foldl_cons]
    rcases List.mem_cons.1 htA with heq | hmem
    · subst heq
      rw [hg']
      obtain ⟨r, hr, hrle⟩ := bestStep_fold_some cfg users rest g'
      exact ⟨r, hr, le_trans hrle hgle⟩
    · exact ih (bestStep cfg users acc c) tA hmem

theorem bestStep_fold_mem (cfg : Config) (users : List User) :
    ∀ (cands : List (List User)) (acc : Option (List User × List User))
      (r : List User × List User),
      cands.foldl (bestStep cfg users) acc = some r →
      (acc = some r ∨ ∃ tA ∈ cands, r = candOf users tA) := by
  intro cands
  induction cands with
  | nil => intro acc r h; exact Or.inl h
  | cons c rest ih =>
    intro acc r h
    rw [List.foldl_cons] at h
    rcases ih _ r h with hacc | ⟨tA, htA, hr⟩
    · cases acc with
      | none =>
        have hcand : some (candOf users c) = some r := hacc
        have : candOf users c = r := by injection hcand
        exact Or.inr ⟨c, List.mem_cons_self c rest, this.symm⟩
      | some b =>
        rw [bestStep_some_eq] at hacc
        by_cases hlt : gameImbalance cfg (candOf users c).1 (candOf users c).2 <
            gameImbalance cfg b.1 b.2
        · rw [if_pos hlt] at hacc
          have : candOf users c = r := by injection hacc
          exact Or.inr ⟨c, List.mem_cons_self c rest, this.symm⟩
        · rw [if_neg hlt] at hacc
          have : b = r := by injection hacc
          exact Or.inl (by rw [this])
    · exact Or.inr ⟨tA, List.mem_cons_of_mem c htA, hr⟩

theorem bestGameUsing_isSome (cfg : Config) (users : List User) :
    ∃ r, bestGameUsing cfg users = some r := by
  unfold bestGameUsing
  have hmem : users.take (users.length / 2) ∈ users.sublistsLen (users.length / 2) := by
    rw [List.mem_sublistsLen]
    refine ⟨List.take_sublist _ _, ?_⟩
    rw [List.length_take]; omega
  cases hc : users.sublistsLen (users.length / 2) with
  | nil => rw [hc] at hmem; exact absurd hmem (List.not_mem_nil _)
  | cons c rest =>
    rw [List.foldl_cons]
    have hfirst : bestStep cfg users none c = some (candOf users c) := rfl
    rw [hfirst]
    obtain ⟨r, hr, _⟩ := bestStep_fold_some cfg users rest (candOf users c)
    exact ⟨r, hr⟩

theorem bestGameUsing_min (cfg : Config) (users : List User)
    (r : List User × List User) (h : bestGameUsing cfg users = some r) :
    ∀ tA ∈ users.sublistsLen (users.length / 2),
      gameImbalance cfg r.1 r.2 ≤
        gameImbalance cfg (candOf users tA).1 (candOf users tA).2 := by
  intro tA htA
  obtain ⟨r', hr', hle⟩ := bestStep_fold_le cfg users _ none tA htA
  unfold bestGameUsing at h
  rw [h] at hr'
  have : r = r' := by injection hr'
  rw [this]; exact hle

theorem bestGameUsing_mem (cfg : Config) (users : List User)
    (r : List User × List User) (h : bestGameUsing cfg users = some r) :
    ∃ tA ∈ users.sublistsLen (users.length / 2), r = candOf users tA := by
  rcases bestStep_fold_mem cfg users _ none r h with hacc | hmem
  · exact absurd hacc (by simp)
  · exact hmem

theorem sublist_filter_contains {users tA : List User}
    (hnd : users.Nodup) (h : tA.Sublist users) :
    users.filter (fun u => tA.contains u) = tA := by
  induction h with
  | slnil => simp
  | @cons l₁ l₂ a h ih =>
    have hnd2 := (List.nodup_cons.1 hnd).2
    have hna : a ∉ l₂ := (List.nodup_cons.1 hnd).1
    have hnat : a ∉ l₁ := fun hcon => hna (h.subset hcon)
    rw [List.filter_cons]
    have : (l₁.contains a) = false := by
      simp [List.elem_iff, hnat]
    rw [this]
    simpa using ih hnd2
  | @cons₂ l₁ l₂ a h ih =>
    have hnd2 := (List.nodup_cons.1 hnd).2
    have hna : a ∉ l₂ := (List.nodup_cons.1 hnd).1
    rw [List.filter_cons]
    have hhead : ((a :: l₁).contains a) = true := by
      simp [List.elem_iff]
    have hcongr : l₂.filter (fun u => (a :: l₁).contains u) =
        l₂.filter (fun u => l₁.contains u) := by
      apply List.filter_congr
      intro u hu
      have hune : u ≠ a := fun hcon => hna (hcon ▸ hu)
      simp [List.elem_iff, List.mem_cons, hune]
    simp only [hhead, if_true]
    rw [hcongr, ih hnd2]

theorem candOf_perm {users tA : List User} (hnd : users.Nodup)
    (htA : tA.Sublist users) :
    ((candOf users tA).1 ++ (candOf users tA).2).Perm users := by
  unfold candOf
  have h1 : users.filter (fun u => tA.contains u) = tA := sublist_filter_contains hnd htA
  have h2 := List.filter_append_perm (fun u => tA.contains u) users
  rw [h1] at h2
  exact h2

theorem candOf_mem_of_mem {users tA : List User} {v : User} (hv : v ∈ users) :
    v ∈ (candOf users tA).1 ++ (candOf users tA).2 := by
  unfold candOf
  rw [List.mem_append]
  by_cases h : v ∈ tA
  · exact Or.inl h
  · refine Or.inr (List.mem_filter.2 ⟨hv, ?_⟩)
    simp [List.elem_iff, h]

theorem candOf_subset {users tA : List User} {v : User}
    (hv : v ∈ (candOf users tA).1 ++ (candOf users tA).2) :
    v ∈ tA ∨ v ∈ users := by
  unfold candOf at hv
  rcases List.mem_append.1 hv with h | h
  · exact Or.inl h
  · exact Or.inr (List.mem_filter.1 h).1

theorem createLoopStep_bg_none (cfg : Config) (theUser : User)
    (acc : Option (List User × List User)) (c : List User)
    (hbg : bestGameUsing cfg (c ++ [theUser]) = none) :
    createLoopStep cfg theUser acc c = acc := by
  unfold createLoopStep
  rw [hbg]

theorem createLoopStep_bg_some_none (cfg : Config) (theUser : User)
    (c : List User) (g : List User × List User)
    (hbg : bestGameUsing cfg (c ++ [theUser]) = some g) :
    createLoopStep cfg theUser none c = some g := by
  unfold createLoopStep
  rw [hbg]

theorem createLoopStep_bg_some_some (cfg : Config) (theUser : User)
    (b : List User × List User) (c : List User) (g : List User × List User)
    (hbg : bestGameUsing cfg (c ++ [theUser]) = some g) :
    createLoopStep cfg theUser (some b) c =
      if gameImbalance cfg g.1 g.2 < gameImbalance cfg b.1 b.2 then some g
      else some b := by
  unfold createLoopStep
  rw [hbg]

theorem createLoopStep_preserves_some (cfg : Config) (theUser : User)
    (b : List User × List User) (c : List User) :
    ∃ r, createLoopStep cfg theUser (some b) c = some r := by
  cases hbg : bestGameUsing cfg (c ++ [theUser]) with
  | none => exact ⟨b, createLoopStep_bg_none cfg theUser (some b) c hbg⟩
  | some g =>
    rw [createLoopStep_bg_some_some cfg theUser b c g hbg]
    by_cases h : gameImbalance cfg g.1 g.2 < gameImbalance cfg b.1 b.2
    · rw [if_pos h]; exact ⟨g, rfl⟩
    · rw [if_neg h]; exact ⟨b, rfl⟩

theorem createLoopStep_of_none (cfg : Config) (theUser : User) (c : List User) :
    ∃ r, createLoopStep cfg theUser none c = some r := by
  obtain ⟨g, hg⟩ := bestGameUsing_isSome cfg (c ++ [theUser])
  exact ⟨g, createLoopStep_bg_some_none cfg theUser c g hg⟩

theorem createLoop_fold_stays_some (cfg : Config) (theUser : User) :
    ∀ (cands : List (List User)) (b : List User × List User),
      ∃ r, cands.foldl (createLoopStep cfg theUser) (some b) = some r := by
  intro cands
  induction cands with
  | nil => intro b; exact ⟨b, rfl⟩
  | cons c rest ih =>
    intro b
    rw [List.foldl_cons]
    obtain ⟨b', hb'⟩ := createLoopStep_preserves_some cfg theUser b c
    rw [hb']
    exact ih b'

theorem createLoop_fold_isSome (cfg : Config) (theUser : User)
    (cands : List (List User)) (hne : cands ≠ []) :
    ∃ r, cands.foldl (createLoopStep cfg theUser) none = some r := by
  cases cands with
  | nil => exact absurd rfl hne
  | cons c rest =>
    rw [List.foldl_cons]
    obtain ⟨g, hg⟩ := createLoopStep_of_none cfg theUser c
    rw [hg]
    exact createLoop_fold_stays_some cfg theUser rest g

theorem createLoop_fold_mem (cfg : Config) (theUser : User) :
    ∀ (cands : List (List User)) (acc : Option (List User × List User))
      (r : List User × List User),
      cands.foldl (createLoopStep cfg theUser) acc = some r →
      acc = some r ∨ ∃ nine ∈ cands, bestGameUsing cfg (nine ++ [theUser]) = some r := by
  intro cands
  induction cands with
  | nil => intro acc r h; exact Or.inl h
  | cons c rest ih =>
    intro acc r h
    rw [List.foldl_cons] at h
    rcases ih _ r h with hacc | ⟨nine, hnine, hr⟩
    · cases hbg : bestGameUsing cfg (c ++ [theUser]) with
      | none =>
        rw [createLoopStep_bg_none cfg theUser acc c hbg] at hacc
        exact Or.inl hacc
      | some g =>
        cases acc with
        | none =>
          rw [createLoopStep_bg_some_none cfg theUser c g hbg] at hacc
          have : g = r := by injection hacc
          exact Or.inr ⟨c, List.mem_cons_self c rest, this ▸ hbg⟩
        | some b =>
          rw [createLoopStep_bg_some_some cfg theUser b c g hbg] at hacc
          by_cases hlt : gameImbalance cfg g.1 g.2 < gameImbalance cfg b.1 b.2
          · rw [if_pos hlt] at hacc
            have : g = r := by injection hacc
            exact Or.inr ⟨c, List.mem_cons_self c rest, this ▸ hbg⟩
          · rw [if_neg hlt] at hacc
            have : b = r := by injection hacc
            exact Or.inl (by rw [this])
    · exact Or.inr ⟨nine, List.mem_cons_of_mem c hnine, hr⟩

theorem pySlice_prefix_sublist (l : List User) (a idx : ℕ) :
    (pySlice l a idx).Sublist (l.take idx) :=
  List.drop_sublist _ _

theorem pySlice_suffix_sublist (l : List User) (idx c : ℕ) :
    (pySlice l (idx + 1) c).Sublist (l.drop idx) := by
  unfold pySlice
  rw [List.drop_take]
  refine List.Sublist.trans (List.take_sublist _ _) ?_
  have h2 : l.drop (idx + 1) = (l.drop idx).drop 1 := by
    rw [List.drop_drop]
  rw [h2]
  exact List.drop_sublist _ _

theorem findUserPool_sublist (cfg : Config) (s : CoordState) (user : User) :
    (findUserPool cfg s user).Sublist s.usersByRating := by
  unfold findUserPool
  refine List.Sublist.trans
    (List.Sublist.append (pySlice_prefix_sublist _ _ _) (pySlice_suffix_sublist _ _ _))
    ?_
  rw [List.take_append_drop]

theorem pySlice_suffix_sublist_succ (l : List User) (idx c : ℕ) :
    (pySlice l (idx + 1) c).Sublist (l.drop (idx + 1)) := by
  unfold pySlice
  rw [List.drop_take]
  exact List.take_sublist _ _

theorem findUserPool_shape (cfg : Config) (s : CoordState) (user : User) :
    ∃ a b, findUserPool cfg s user =
      pySlice s.usersByRating a (findIndexBS getRating user s.usersByRating) ++
      pySlice s.usersByRating (findIndexBS getRating user s.usersByRating + 1) b :=
  ⟨_, _, rfl⟩

theorem findUserPool_not_mem (cfg : Config) (s : CoordState) {user : User}
    (hs : SortedBy getRating s.usersByRating) (hnd : s.usersByRating.Nodup)
    (hmem : user ∈ s.usersByRating) :
    user ∉ findUserPool cfg s user := by
  obtain ⟨hlt, hval⟩ := @findIndexBS_found getRating user s.usersByRating hs hmem
  have hget : s.usersByRating[findIndexBS getRating user s.usersByRating] = user := by
    rw [← List.getD_eq_getElem s.usersByRating dummyUser hlt, hval]
  intro hpool
  obtain ⟨a, b, hshape⟩ := findUserPool_shape cfg s user
  rw [hshape, List.mem_append] at hpool
  rcases hpool with h | h
  · have h1 : user ∈ s.usersByRating.take (findIndexBS getRating user s.usersByRating) :=
      (pySlice_prefix_sublist _ a _).subset h
    rw [List.mem_take_iff_getElem] at h1
    obtain ⟨j, hj, hjval⟩ := h1
    have hje : j = findIndexBS getRating user s.usersByRating :=
      (hnd.getElem_inj_iff).1 (by rw [hjval, hget])
    omega
  · have h1 : user ∈ s.usersByRating.drop (findIndexBS getRating user s.usersByRating + 1) :=
      (pySlice_suffix_sublist_succ _ _ b).subset h
    obtain ⟨i, hi, hival⟩ := List.mem_iff_getElem.1 h1
    rw [List.getElem_drop] at hival
    have hje : findIndexBS getRating user s.usersByRating + 1 + i =
        findIndexBS getRating user s.usersByRating :=
      (hnd.getElem_inj_iff).1 (by rw [hival, hget])
    omega

theorem createStep_spec (cfg : Config) (s : CoordState) (hWf : Wf s)
    (hlen : 10 ≤ s.usersFIFO.length)
    (hpool : 9 ≤ (findUserPool cfg s (s.usersFIFO.getD 0 dummyUser)).length) :
    ∃ A B : List User,
      createStep cfg s = some ((A, B), removeUsers s (A ++ B)) ∧
      (A ++ B).Nodup ∧ (A ++ B).length = 10 ∧
      (∀ u ∈ A ++ B, u ∈ s.usersFIFO) ∧
      (∀ u ∈ A ++ B, u ∈ findUserPool cfg s (s.usersFIFO.getD 0 dummyUser) ∨
        u = s.usersFIFO.getD 0 dummyUser) ∧
      s.usersFIFO.getD 0 dummyUser ∈ A ++ B ∧
      (removeUsers s (A ++ B)).usersFIFO =
        s.usersFIFO.filter (fun v => !(A ++ B).contains v) ∧
      (removeUsers s (A ++ B)).usersByRating =
        s.usersByRating.filter (fun v => !(A ++ B).contains v) := by
  set theUser := s.usersFIFO.getD 0 dummyUser with htu
  set pool := findUserPool cfg s theUser with hpdef
  have hfifo_pos : 0 < s.usersFIFO.length := by omega
  have htu_mem : theUser ∈ s.usersFIFO := by
    rw [htu, List.getD_eq_getElem _ _ hfifo_pos]
    exact List.getElem_mem _
  have hndR : s.usersByRating.Nodup := hWf.perm.nodup_iff.2 hWf.fifoNodup
  have htuR : theUser ∈ s.usersByRating := hWf.perm.mem_iff.2 htu_mem
  have hpool_sub : pool.Sublist s.usersByRating := findUserPool_sublist cfg s theUser
  have hpool_nd : pool.Nodup := hndR.sublist hpool_sub
  have htu_npool : theUser ∉ pool :=
    findUserPool_not_mem cfg s hWf.ratingSorted hndR htuR
  have hc_mem : pool.take 9 ∈ pool.sublistsLen 9 := by
    rw [List.mem_sublistsLen]
    refine ⟨List.take_sublist _ _, ?_⟩
    rw [List.length_take]; omega
  have hc_ne : pool.sublistsLen 9 ≠ [] := by
    intro hcon; rw [hcon] at hc_mem; exact absurd hc_mem (List.not_mem_nil _)
  obtain ⟨r, hr⟩ := createLoop_fold_isSome cfg theUser _ hc_ne
  rcases createLoop_fold_mem cfg theUser _ none r hr with habs | ⟨nine, hnine, hbg⟩
  · exact absurd habs (by simp)
  obtain ⟨hnine_sub, hnine_len⟩ := List.mem_sublistsLen.1 hnine
  have hnine_nd : nine.Nodup := hpool_nd.sublist hnine_sub
  have htu_nnine : theUser ∉ nine := fun hcon => htu_npool (hnine_sub.subset hcon)
  have hinput_nd : (nine ++ [theUser]).Nodup := by
    rw [List.nodup_append]
    refine ⟨hnine_nd, List.nodup_singleton _, ?_⟩
    intro x hx hx2
    rw [List.mem_singleton] at hx2
    exact htu_nnine (hx2 ▸ hx)
  obtain ⟨tA, htA, hrcand⟩ := bestGameUsing_mem cfg (nine ++ [theUser]) r hbg
  obtain ⟨htA_sub, _⟩ := List.mem_sublistsLen.1 htA
  have hperm : (r.1 ++ r.2).Perm (nine ++ [theUser]) := by
    rw [hrcand]; exact candOf_perm hinput_nd htA_sub
  have hmemF : ∀ u ∈ r.1 ++ r.2, u ∈ s.usersFIFO := by
    intro u hu
    have hu2 := hperm.subset hu
    rcases List.mem_append.1 hu2 with h | h
    · exact hWf.perm.mem_iff.1 (hpool_sub.subset (hnine_sub.subset h))
    · rw [List.mem_singleton] at h
      exact h ▸ htu_mem
  have hnodup : (r.1 ++ r.2).Nodup := hperm.nodup_iff.2 hinput_nd
  obtain ⟨hf1, hf2, _⟩ := removeUsers_filter (r.1 ++ r.2) s hWf hnodup hmemF
  refine ⟨r.1, r.2, ?_, hnodup, ?_, hmemF, ?_, ?_, hf1, hf2⟩
  · unfold createStep
    rw [if_neg (by omega)]
    rw [← htu, ← hpdef, hr]
  · rw [hperm.length_eq, List.length_append, hnine_len]
    rfl
  · intro u hu
    have hu2 := hperm.subset hu
    rcases List.mem_append.1 hu2 with h | h
    · exact Or.inl (hnine_sub.subset h)
    · rw [List.mem_singleton] at h
      exact Or.inr h
  · refine hperm.mem_iff.2 ?_
    rw [List.mem_append, List.mem_singleton]
    exact Or.inr rfl

/-- C5: when the queue holds at least 2T = 10 players (and the rating
pool reaches the nine players the exhaustive search needs), __create
succeeds and removes exactly the selected players: the post-call FIFO
queue and rating list are the pre-call ones with precisely the members
of radiant ∪ dire filtered out, every selected player having been in
the pre-call queue. -/
theorem C5_form_game_removal (cfg : Config) (s : CoordState) (hWf : Wf s)
    (hlen : 10 ≤ s.usersFIFO.length)
    (hpool : 9 ≤ (findUserPool cfg s (s.usersFIFO.getD 0 dummyUser)).length) :
    ∃ A B s', createStep cfg s = some ((A, B), s') ∧
      (A ++ B).Nodup ∧ (∀ u ∈ A ++ B, u ∈ s.usersFIFO) ∧
      s'.usersFIFO = s.usersFIFO.filter (fun v => !(A ++ B).contains v) ∧
      s'.usersByRating = s.usersByRating.filter (fun v => !(A ++ B).contains v) := by
  obtain ⟨A, B, h1, h2, h3, h4, h5, h6, h7, h8⟩ := createStep_spec cfg s hWf hlen hpool
  exact ⟨A, B, removeUsers s (A ++ B), h1, h2, h4, h7, h8⟩

/-- Witness for C5 at the concrete ten-player state. -/
theorem C5_witness :
    10 ≤ stateTen.usersFIFO.length ∧
    9 ≤ (findUserPool cfgTen stateTen (stateTen.usersFIFO.getD 0 dummyUser)).length ∧
    (∃ A B s', createStep cfgTen stateTen = some ((A, B), s') ∧
      (A ++ B).Nodup ∧ (∀ u ∈ A ++ B, u ∈ stateTen.usersFIFO) ∧
      s'.usersFIFO = stateTen.usersFIFO.filter (fun v => !(A ++ B).contains v) ∧
      s'.usersByRating =
        stateTen.usersByRating.filter (fun v => !(A ++ B).contains v)) :=
  ⟨by decide, by decide,
    C5_form_game_removal cfgTen stateTen
      ⟨by decide, by decide, by decide, by decide⟩ (by decide) (by decide)⟩

/-- C9 counterexample: in the concrete twenty-player queue with
lookAround 18, player 20 is queued, the queue is large enough for game
creation to proceed (and the pool holds the nine players it needs), yet
player 20 lies outside the rating window findUserPool builds around the
longest-waiting player, and is not that player either — so the
selection, which only ever draws from that pool plus the longest
waiter, can never pick player 20, contradicting sampling with positive
weight over the whole queue. -/
theorem C9_counterexample :
    (⟨20, 200, 20⟩ : User) ∈ stateTwenty.usersFIFO ∧
    (⟨20, 200, 20⟩ : User) ∉
      findUserPool cfgTwenty stateTwenty (stateTwenty.usersFIFO.getD 0 dummyUser) ∧
    (⟨20, 200, 20⟩ : User) ≠ stateTwenty.usersFIFO.getD 0 dummyUser ∧
    10 ≤ stateTwenty.usersFIFO.length ∧
    9 ≤ (findUserPool cfgTwenty stateTwenty
      (stateTwenty.usersFIFO.getD 0 dummyUser)).length := by
  decide

/-- C9 (amended): the selection of Coordinator.__create is a
deterministic function of the queue state, not a weighted random
sample: it always includes the longest-waiting player, and every other
selected player comes from the rating window findUserPool builds around
that player; exactly 2T = 10 players are selected.  No join-time
weights and no randomness are involved. -/
theorem C9_deterministic_selection (cfg : Config) (s : CoordState) (hWf : Wf s)
    (hlen : 10 ≤ s.usersFIFO.length)
    (hpool : 9 ≤ (findUserPool cfg s (s.usersFIFO.getD 0 dummyUser)).length) :
    ∃ A B s', createStep cfg s = some ((A, B), s') ∧
      s.usersFIFO.getD 0 dummyUser ∈ A ++ B ∧
      (∀ u ∈ A ++ B, u ∈ findUserPool cfg s (s.usersFIFO.getD 0 dummyUser) ∨
        u = s.usersFIFO.getD 0 dummyUser) ∧
      (A ++ B).length = 10 := by
  obtain ⟨A, B, h1, h2, h3, h4, h5, h6, h7, h8⟩ := createStep_spec cfg s hWf hlen hpool
  exact ⟨A, B, removeUsers s (A ++ B), h1, h6, h5, h3⟩

/-- Witness for C9 (amended) at the concrete twenty-player state. -/
theorem C9_witness :
    10 ≤ stateTwenty.usersFIFO.length ∧
    9 ≤ (findUserPool cfgTwenty stateTwenty
      (stateTwenty.usersFIFO.getD 0 dummyUser)).length ∧
    (∃ A B s', createStep cfgTwenty stateTwenty = some ((A, B), s') ∧
      stateTwenty.usersFIFO.getD 0 dummyUser ∈ A ++ B ∧
      (∀ u ∈ A ++ B,
        u ∈ findUserPool cfgTwenty stateTwenty
          (stateTwenty.usersFIFO.getD 0 dummyUser) ∨
        u = stateTwenty.usersFIFO.getD 0 dummyUser) ∧
      (A ++ B).length = 10) :=
  ⟨by decide, by decide,
    C9_deterministic_selection cfgTwenty stateTwenty
      ⟨by decide, by decide, by decide, by decide⟩ (by decide) (by decide)⟩

/-- C3 counterexample: with teams of ratings {1,3} vs {1,3} (pNorm 5,
qNorm 2, alpha 1), the code score gameImbalance is 1 — the mean
deviation of the four ratings from their average — while the spec
formula |M_p(A) - M_p(B)| + U_q(A,B) is 0, because both the power
means and the sorted rating vectors coincide.  The two formulas are
therefore different functions. -/
theorem C3_counterexample :
    gameImbalance ⟨5, 2, 1, 0⟩ [⟨1, 1, 0⟩, ⟨2, 3, 0⟩] [⟨3, 1, 0⟩, ⟨4, 3, 0⟩] = 1 ∧
    specPartitionScore 5 2 [⟨1, 1, 0⟩, ⟨2, 3, 0⟩] [⟨3, 1, 0⟩, ⟨4, 3, 0⟩] = 0 ∧
    (1 : ℝ) ≠ 0 := by
  refine ⟨?_, ?_, one_ne_zero⟩
  · unfold gameImbalance
    norm_num [Real.one_rpow]
  · unfold specPartitionScore powerMeanTeam
    norm_num [List.insertionSort, List.orderedInsert, List.zipWith,
      Real.zero_rpow (by norm_num : (1 : ℝ) / 2 ≠ 0)]

/-- C3 (amended): the score the matchmaker uses to rank candidate
partitions is gameImbalance(A,B) = D_q(A,B) + alpha · |M_p(A) - M_p(B)|
with p = pNorm, q = qNorm and alpha from config, where D_q is the L_q
mean deviation of all 2T ratings from the overall average (not the
rank-matched distance between the sorted vectors); lower is better:
bestGameUsingExactlyThesePlayers returns a partition whose
gameImbalance is minimal over all enumerated partitions. -/
theorem C3_partition_score (cfg : Config) (users : List User) :
    (∀ teamA teamB : List User,
      gameImbalance cfg teamA teamB =
        normedDeviation cfg.qNorm teamA teamB +
          cfg.alpha * |powerMeanTeam cfg.pNorm teamA - powerMeanTeam cfg.pNorm teamB|) ∧
    ∃ r, bestGameUsing cfg users = some r ∧
      ∀ tA ∈ users.sublistsLen (users.length / 2),
        gameImbalance cfg r.1 r.2 ≤
          gameImbalance cfg tA (users.filter (fun u => !tA.contains u)) := by
  constructor
  · intro teamA teamB
    unfold gameImbalance normedDeviation powerMeanTeam
    simp only [List.map_map, List.map_append, List.sum_append, Function.comp_def]
  · obtain ⟨r, hr⟩ := bestGameUsing_isSome cfg users
    refine ⟨r, hr, ?_⟩
    intro tA htA
    have h := bestGameUsing_min cfg users r hr tA htA
    simpa [candOf] using h

end Coordinator

namespace MasterBot

theorem abs_pythonRound_sub_le (x : ℝ) : |(pythonRound x : ℝ) - x| ≤ 1 / 2 := by
  unfold pythonRound
  by_cases h : Int.fract x = 1 / 2
  · have hfl : (⌊x⌋ : ℝ) = x - 1 / 2 := by
      have h2 := Int.floor_add_fract x
      rw [h] at h2
      linarith
    rw [if_pos h]
    by_cases he : Even ⌊x⌋
    · rw [if_pos he]
      have h3 : ((⌊x⌋ : ℤ) : ℝ) - x = -(1 / 2) := by rw [hfl]; ring
      rw [h3, abs_neg, abs_of_nonneg (by norm_num : (0 : ℝ) ≤ 1 / 2)]
    · rw [if_neg he]
      have h3 : ((⌊x⌋ + 1 : ℤ) : ℝ) - x = 1 / 2 := by push_cast; rw [hfl]; ring
      rw [h3, abs_of_nonneg (by norm_num : (0 : ℝ) ≤ 1 / 2)]
  · rw [if_neg h]
    rw [abs_sub_comm]
    exact abs_sub_round x

theorem pythonRound_intCast (n : ℤ) : pythonRound (n : ℝ) = n := by
  unfold pythonRound
  rw [Int.fract_intCast]
  norm_num

theorem pythonInt_intCast (n : ℤ) : pythonInt (n : ℝ) = n := by
  unfold pythonInt
  by_cases h : (0 : ℝ) ≤ (n : ℝ)
  · rw [if_pos h, Int.floor_intCast]
  · rw [if_neg h]
    rw [show (-(n : ℝ)) = ((-n : ℤ) : ℝ) by push_cast; ring, Int.floor_intCast]
    ring

theorem power_mean_singleton (r : ℤ) (hr : 0 ≤ r) : power_mean [r] 5 = r := by
  unfold power_mean
  have h0 : (0 : ℝ) ≤ (r : ℝ) := by exact_mod_cast hr
  have h1 : ((([r].map (fun q => (q : ℝ) ^ (5 : ℕ))).sum) / (([r] : List ℤ).length : ℝ)) =
      (r : ℝ) ^ (5 : ℕ) := by
    simp
  rw [h1]
  have h2 : ((r : ℝ) ^ (5 : ℕ)) ^ ((1 : ℝ) / ((5 : ℕ) : ℝ)) = (r : ℝ) := by
    rw [← Real.rpow_natCast (r : ℝ) 5, ← Real.rpow_mul h0]
    norm_num
  rw [h2, pythonInt_intCast]

theorem eloExpectedRadiant_self (r : ℤ) : eloExpectedRadiant r r = 1 / 2 := by
  unfold eloExpectedRadiant
  rw [sub_self, zero_div, Real.rpow_zero]
  norm_num

theorem countFinalize_append (j : List DBWrite) (w : DBWrite) :
    countFinalize (j ++ [w]) =
      countFinalize j +
        (match w with | .finalizeMatch _ _ _ => 1 | _ => 0) := by
  unfold countFinalize
  rw [List.countP_append]
  cases w <;> simp [List.countP_cons]

theorem countRatingWrites_append (j : List DBWrite) (w : DBWrite) :
    countRatingWrites (j ++ [w]) =
      countRatingWrites j +
        (match w with | .updateRating _ _ => 1 | _ => 0) := by
  unfold countRatingWrites
  rw [List.countP_append]
  cases w <;> simp [List.countP_cons]

theorem journal_applyWrite (db : DBState) (w : DBWrite) :
    (applyWrite db w).journal = db.journal ++ [w] := by
  cases w with
  | insertMatch row =>
    simp only [applyWrite]
    by_cases h : (db.matchRows.any fun m => m.match_id == row.match_id) = true
    · rw [if_pos h]
    · rw [if_neg h]
  | insertMatchPlayer row => rfl
  | updateRating d r => rfl
  | finalizeMatch mid wt st => rfl

theorem ratingFold_countFinalize (val : ℤ × ℤ → ℤ) :
    ∀ (l : List (ℤ × ℤ)) (db : DBState),
      countFinalize ((l.foldl (fun db pr =>
        applyWrite db (.updateRating pr.1 (val pr))) db).journal) =
        countFinalize db.journal := by
  intro l
  induction l with
  | nil => intro db; rfl
  | cons pr rest ih =>
    intro db
    rw [List.foldl_cons, ih, journal_applyWrite, countFinalize_append]
    simp

theorem clearGame_db (b : BotState) (gid : ℤ) : (clearGame b gid).db = b.db := by
  unfold clearGame
  cases alookup b.game_map_inverse gid <;> rfl

theorem onGameEnded_eq_none (k : ℝ) (b : BotState) (gid : ℤ) (info : GameInfo)
    (h : alookup b.game_map_inverse gid = none) :
    onGameEnded k b gid info =
      { b with db := applyWrite b.db (.finalizeMatch info.match_id info.match_outcome info.game_state) } := by
  unfold onGameEnded
  rw [h]

theorem onGameEnded_eq_some (k : ℝ) (b : BotState) (gid : ℤ) (info : GameInfo)
    (rosters : List ℤ × List ℤ)
    (h : alookup b.game_map_inverse gid = some rosters) :
    onGameEnded k b gid info =
      { clearGame b gid with
        db := applyWrite
          ((rosters.2.zip (rosters.2.map (fetchRating b.db))).foldl
            (fun db (pr : ℤ × ℤ) => applyWrite db (.updateRating pr.1
              (eloNewRating k pr.2
                (1 - (if info.match_outcome = 2 then 1 else 0))
                (1 - eloExpectedRadiant
                  (power_mean (rosters.1.map (fetchRating b.db)) 5)
                  (power_mean (rosters.2.map (fetchRating b.db)) 5)))))
            ((rosters.1.zip (rosters.1.map (fetchRating b.db))).foldl
              (fun db (pr : ℤ × ℤ) => applyWrite db (.updateRating pr.1
                (eloNewRating k pr.2 (if info.match_outcome = 2 then 1 else 0)
                  (eloExpectedRadiant
                    (power_mean (rosters.1.map (fetchRating b.db)) 5)
                    (power_mean (rosters.2.map (fetchRating b.db)) 5)))))
              (clearGame b gid).db))
          (.finalizeMatch info.match_id info.match_outcome info.game_state) } := by
  unfold onGameEnded
  rw [h]

theorem onGameEnded_db_none (k : ℝ) (b : BotState) (gid : ℤ) (info : GameInfo)
    (h : alookup b.game_map_inverse gid = none) :
    (onGameEnded k b gid info).db =
      applyWrite b.db (.finalizeMatch info.match_id info.match_outcome info.game_state) := by
  rw [onGameEnded_eq_none k b gid info h]

theorem onGameEnded_db_some (k : ℝ) (b : BotState) (gid : ℤ) (info : GameInfo)
    (rosters : List ℤ × List ℤ)
    (h : alookup b.game_map_inverse gid = some rosters) :
    (onGameEnded k b gid info).db =
      applyWrite
        ((rosters.2.zip (rosters.2.map (fetchRating b.db))).foldl
          (fun db (pr : ℤ × ℤ) => applyWrite db (.updateRating pr.1
            (eloNewRating k pr.2
              (1 - (if info.match_outcome = 2 then 1 else 0))
              (1 - eloExpectedRadiant
                (power_mean (rosters.1.map (fetchRating b.db)) 5)
                (power_mean (rosters.2.map (fetchRating b.db)) 5)))))
          ((rosters.1.zip (rosters.1.map (fetchRating b.db))).foldl
            (fun db (pr : ℤ × ℤ) => applyWrite db (.updateRating pr.1
              (eloNewRating k pr.2 (if info.match_outcome = 2 then 1 else 0)
                (eloExpectedRadiant
                  (power_mean (rosters.1.map (fetchRating b.db)) 5)
                  (power_mean (rosters.2.map (fetchRating b.db)) 5)))))
            (clearGame b gid).db))
        (.finalizeMatch info.match_id info.match_outcome info.game_state) := by
  rw [onGameEnded_eq_some k b gid info rosters h]

theorem onGameEnded_countFinalize (k : ℝ) (b : BotState) (gid : ℤ) (info : GameInfo) :
    countFinalize ((onGameEnded k b gid info).db.journal) =
      countFinalize b.db.journal + 1 := by
  cases hl : alookup b.game_map_inverse gid with
  | none =>
    rw [onGameEnded_db_none k b gid info hl]
    rw [journal_applyWrite, countFinalize_append]
  | some rosters =>
    rw [onGameEnded_db_some k b gid info rosters hl]
    rw [journal_applyWrite, countFinalize_append]
    rw [ratingFold_countFinalize, ratingFold_countFinalize, clearGame_db]

theorem onGameEnded_countRating_of_none (k : ℝ) (b : BotState) (gid : ℤ)
    (info : GameInfo) (h : alookup b.game_map_inverse gid = none) :
    countRatingWrites ((onGameEnded k b gid info).db.journal) =
      countRatingWrites b.db.journal := by
  rw [onGameEnded_db_none k b gid info h]
  rw [journal_applyWrite, countRatingWrites_append]
  simp

theorem alookup_filter_ne {α : Type} (l : List (ℤ × α)) (gid : ℤ) :
    alookup (l.filter (fun p => p.1 != gid)) gid = none := by
  unfold alookup
  rw [List.find?_eq_none.2]
  · rfl
  · intro x hx
    have := (List.mem_filter.1 hx).2
    simp only [bne_iff_ne, ne_eq, decide_eq_true_eq] at this
    simp [this]

theorem onGameEnded_lookup_none (k : ℝ) (b : BotState) (gid : ℤ) (info : GameInfo) :
    alookup ((onGameEnded k b gid info).game_map_inverse) gid = none := by
  cases hl : alookup b.game_map_inverse gid with
  | none =>
    rw [onGameEnded_eq_none k b gid info hl]
    exact hl
  | some rosters =>
    rw [onGameEnded_eq_some k b gid info rosters hl]
    show alookup (clearGame b gid).game_map_inverse gid = none
    unfold clearGame
    rw [hl]
    exact alookup_filter_ne _ gid

theorem onGameStarted_not_pending (b : BotState) (gid : ℤ) (info : GameInfo)
    (h : gid ∉ b.pending_matches) : onGameStarted b gid info = b := by
  unfold onGameStarted
  rw [if_neg h]

theorem onGameStarted_pending_result (b : BotState) (gid : ℤ) (info : GameInfo) :
    (onGameStarted b gid info).pending_matches =
      if gid ∈ b.pending_matches then b.pending_matches.erase gid
      else b.pending_matches := by
  unfold onGameStarted
  by_cases h : gid ∈ b.pending_matches
  · rw [if_pos h, if_pos h]
  · rw [if_neg h, if_neg h]

theorem eloNewRating_dn : eloNewRating 32 3000 0 (1 / 2) = 2984 := by
  unfold eloNewRating
  rw [show ((3000 : ℤ) : ℝ) + 32 * (((0 : ℤ) : ℝ) - 1 / 2) = ((2984 : ℤ) : ℝ) from by
    push_cast; norm_num]
  exact pythonRound_intCast 2984

theorem eloNewRating_up : eloNewRating 32 3000 1 (1 / 2) = 3016 := by
  unfold eloNewRating
  rw [show ((3000 : ℤ) : ℝ) + 32 * (((1 : ℤ) : ℝ) - 1 / 2) = ((3016 : ℤ) : ℝ) from by
    push_cast; norm_num]
  exact pythonRound_intCast 3016

/-- C4 counterexample: delivering the same lobby-ended event for game 7
twice executes the match-finalization UPDATE statement twice — the
duplicate is not dropped without effect (only the rating updates are
skipped, because the rosters are gone and the first try-block dies on
its KeyError). -/
theorem C4_counterexample :
    countFinalize ((onGameEnded 32 (onGameEnded 32 bEnded 7 radiantWinInfo) 7
      radiantWinInfo).db.journal) = 2 := by
  rw [onGameEnded_countFinalize, onGameEnded_countFinalize]
  rfl

/-- C4 (amended): per game id, on_game_started is idempotent (its
effects run at most once, guarded by pending_matches) and the rating
updates of on_game_ended run at most once (a duplicate delivery finds
the rosters gone), but the match-finalization UPDATE of on_game_ended
is executed again on every duplicate delivery (writing the same
values), so duplicate lobby-ended events are not dropped without
effect. -/
theorem C4_at_most_once (k : ℝ) (b : BotState) (gid : ℤ) (info info2 : GameInfo)
    (hnd : b.pending_matches.Nodup) :
    onGameStarted (onGameStarted b gid info) gid info = onGameStarted b gid info ∧
    countRatingWrites ((onGameEnded k (onGameEnded k b gid info2) gid
        info2).db.journal) =
      countRatingWrites ((onGameEnded k b gid info2).db.journal) ∧
    countFinalize ((onGameEnded k (onGameEnded k b gid info2) gid
        info2).db.journal) =
      countFinalize ((onGameEnded k b gid info2).db.journal) + 1 := by
  refine ⟨?_, ?_, onGameEnded_countFinalize k _ gid info2⟩
  · by_cases h : gid ∈ b.pending_matches
    · apply onGameStarted_not_pending
      rw [onGameStarted_pending_result, if_pos h]
      intro hcon
      exact absurd ((List.Nodup.mem_erase_iff hnd).1 hcon).1 (by simp)
    · rw [onGameStarted_not_pending b gid info h]
      exact onGameStarted_not_pending b gid info h
  · exact onGameEnded_countRating_of_none k _ gid info2
      (onGameEnded_lookup_none k b gid info2)

/-- Witness for C4 (amended) at the concrete states. -/
theorem C4_witness :
    bStarted.pending_matches.Nodup ∧
    (onGameStarted (onGameStarted bStarted 7 startInfo) 7 startInfo =
        onGameStarted bStarted 7 startInfo ∧
      countRatingWrites ((onGameEnded 32 (onGameEnded 32 bStarted 7
          radiantWinInfo) 7 radiantWinInfo).db.journal) =
        countRatingWrites ((onGameEnded 32 bStarted 7 radiantWinInfo).db.journal) ∧
      countFinalize ((onGameEnded 32 (onGameEnded 32 bStarted 7
          radiantWinInfo) 7 radiantWinInfo).db.journal) =
        countFinalize ((onGameEnded 32 bStarted 7 radiantWinInfo).db.journal) + 1) :=
  ⟨by decide, C4_at_most_once 32 bStarted 7 startInfo radiantWinInfo (by decide)⟩

/-- C1 counterexample: a lobby-ended event with outcome unknown (0)
for the match of game 7 (both players rated 3000, K = 32) does NOT
leave ratings unchanged: the handler treats 'not a radiant win' as a
dire win, dropping player 1's rating from 3000 to 2984, and the match
row's winning_team is set to the raw outcome value 0 with state = the
raw game_state, rather than to none/ended-without-update. -/
theorem C1_counterexample :
    fetchRating ((onGameEnded 32 bEnded 7 unknownInfo).db) 1 = 2984 ∧
    fetchRating bEnded.db 1 = 3000 ∧
    ((2984 : ℤ) ≠ 3000) ∧
    (onGameEnded 32 bEnded 7 unknownInfo).db.matchRows =
      [⟨42, 99, 6, 22, 2, 1, 5, some 0⟩] := by
  have hdb := onGameEnded_db_some 32 bEnded 7 unknownInfo ([1], [2]) rfl
  rw [show (([1], [2]).1 : List ℤ).map (fetchRating bEnded.db) = [3000] from rfl,
    show (([1], [2]).2 : List ℤ).map (fetchRating bEnded.db) = [3000] from rfl,
    power_mean_singleton 3000 (by norm_num), eloExpectedRadiant_self,
    show (if unknownInfo.match_outcome = 2 then (1 : ℤ) else 0) = 0 from by
      norm_num [unknownInfo]] at hdb
  have hdb2 : (onGameEnded 32 bEnded 7 unknownInfo).db =
      applyWrite (applyWrite (applyWrite bEnded.db
        (.updateRating 1 (eloNewRating 32 3000 0 (1 / 2))))
        (.updateRating 2 (eloNewRating 32 3000 (1 - 0) (1 - 1 / 2))))
      (.finalizeMatch 42 0 6) := by
    rw [hdb]
    rfl
  rw [show ((1 : ℤ) - 0) = 1 from by norm_num,
    show ((1 : ℝ) - 1 / 2) = 1 / 2 from by norm_num,
    eloNewRating_dn, eloNewRating_up] at hdb2
  refine ⟨?_, rfl, by decide, ?_⟩
  · rw [hdb2]; rfl
  · rw [hdb2]; rfl

/-- C1 (amended): when the reported outcome is anything other than a
radiant win (2) — including unknown (0) — on_game_ended performs the
full Elo update exactly as if the dire team had won (the resulting
users table is identical to that of an explicit dire-win event), and
its final UPDATE writes the raw match_outcome and game_state values
into the match row; no skip-Elo / winning_team = none policy exists in
the code. -/
theorem C1_unknown_as_dire_win (k : ℝ) (b : BotState) (gid : ℤ) (info : GameInfo)
    (h : info.match_outcome ≠ 2) :
    (onGameEnded k b gid info).db.users =
      (onGameEnded k b gid { info with match_outcome := 3 }).db.users ∧
    (onGameEnded k b gid info).db.journal =
      ((onGameEnded k b gid info).db.journal).dropLast ++
        [DBWrite.finalizeMatch info.match_id info.match_outcome info.game_state] := by
  constructor
  · cases hl : alookup b.game_map_inverse gid with
    | none =>
      rw [onGameEnded_db_none k b gid info hl,
        onGameEnded_db_none k b gid { info with match_outcome := 3 } hl]
      rfl
    | some rosters =>
      rw [onGameEnded_db_some k b gid info rosters hl,
        onGameEnded_db_some k b gid { info with match_outcome := 3 } rosters hl]
      rw [if_neg h]
      rw [show ({ info with match_outcome := 3 } : GameInfo).match_outcome = 3 from rfl]
      rw [if_neg (by norm_num : ¬(3 : ℤ) = 2)]
      rfl
  · cases hl : alookup b.game_map_inverse gid with
    | none =>
      rw [onGameEnded_db_none k b gid info hl, journal_applyWrite,
        List.dropLast_concat]
    | some rosters =>
      rw [onGameEnded_db_some k b gid info rosters hl, journal_applyWrite,
        List.dropLast_concat]

/-- Witness for C1 (amended) at the concrete post-game state with the
unknown outcome. -/
theorem C1_witness :
    unknownInfo.match_outcome ≠ 2 ∧
    ((onGameEnded 32 bEnded 7 unknownInfo).db.users =
        (onGameEnded 32 bEnded 7 { unknownInfo with match_outcome := 3 }).db.users ∧
      (onGameEnded 32 bEnded 7 unknownInfo).db.journal =
        ((onGameEnded 32 bEnded 7 unknownInfo).db.journal).dropLast ++
          [DBWrite.finalizeMatch unknownInfo.match_id unknownInfo.match_outcome
            unknownInfo.game_state]) :=
  ⟨by decide, C1_unknown_as_dire_win 32 bEnded 7 unknownInfo (by decide)⟩

theorem sum_map_const_real (c : ℝ) :
    ∀ l : List ℤ, (l.map (fun _ => c)).sum = (l.length : ℝ) * c := by
  intro l
  induction l with
  | nil => simp
  | cons r t ih =>
    simp only [List.map_cons, List.sum_cons, List.length_cons, ih]
    push_cast
    ring

theorem team_round_bound (k : ℝ) (s : ℤ) (e : ℝ) :
    ∀ l : List ℤ,
      |((((eloTeamNewRatings k l s e).sum - l.sum : ℤ)) : ℝ) -
        (l.length : ℝ) * (k * ((s : ℝ) - e))| ≤ (l.length : ℝ) / 2 := by
  intro l
  induction l with
  | nil => simp [eloTeamNewRatings]
  | cons r t ih =>
    have hhead : |((eloNewRating k r s e : ℤ) : ℝ) - ((r : ℝ) + k * ((s : ℝ) - e))| ≤
        1 / 2 := by
      unfold eloNewRating
      exact abs_pythonRound_sub_le _
    have hsplit :
        ((((eloTeamNewRatings k (r :: t) s e).sum - (r :: t).sum : ℤ)) : ℝ) -
          ((r :: t).length : ℝ) * (k * ((s : ℝ) - e)) =
        (((eloNewRating k r s e : ℤ) : ℝ) - ((r : ℝ) + k * ((s : ℝ) - e))) +
          (((((eloTeamNewRatings k t s e).sum - t.sum : ℤ)) : ℝ) -
            (t.length : ℝ) * (k * ((s : ℝ) - e))) := by
      simp only [eloTeamNewRatings, List.map_cons, List.sum_cons, List.length_cons]
      push_cast
      ring
    rw [hsplit]
    calc |_ + _| ≤ _ + _ := abs_add _ _
      _ ≤ 1 / 2 + (t.length : ℝ) / 2 := add_le_add hhead ih
      _ = ((r :: t).length : ℝ) / 2 := by
        simp only [List.length_cons]
        push_cast
        ring

/-- C6: for a match between two teams of equal size T, the Elo rating
changes the handler applies — s_dire = 1 - s_radiant and
e_dire = 1 - e_radiant exactly as in on_game_ended — sum to zero when
computed without rounding, and the round-to-int per-player updates
(eloTeamNewRatings) leave a total drift of at most 2T rating points. -/
theorem C6_elo_conservation (k : ℝ) (rR rD : List ℤ) (sR : ℤ) (e : ℝ)
    (hlen : rR.length = rD.length) :
    ((rR.map (fun _ => k * ((sR : ℝ) - e))).sum +
      (rD.map (fun _ => k * ((((1 - sR : ℤ)) : ℝ) - (1 - e)))).sum) = 0 ∧
    |((eloTeamNewRatings k rR sR e).sum + (eloTeamNewRatings k rD (1 - sR) (1 - e)).sum) -
      (rR.sum + rD.sum)| ≤ 2 * (rR.length : ℤ) := by
  have hzero : ((rR.map (fun _ => k * ((sR : ℝ) - e))).sum +
      (rD.map (fun _ => k * ((((1 - sR : ℤ)) : ℝ) - (1 - e)))).sum) = 0 := by
    rw [sum_map_const_real, sum_map_const_real, hlen]
    push_cast
    ring
  refine ⟨hzero, ?_⟩
  have hR := team_round_bound k sR e rR
  have hD := team_round_bound k (1 - sR) (1 - e) rD
  have hsum0 : (rR.length : ℝ) * (k * ((sR : ℝ) - e)) +
      (rD.length : ℝ) * (k * (((1 - sR : ℤ) : ℝ) - (1 - e))) = 0 := by
    rw [hlen]
    push_cast
    ring
  have hcast : (((((eloTeamNewRatings k rR sR e).sum +
      (eloTeamNewRatings k rD (1 - sR) (1 - e)).sum) - (rR.sum + rD.sum) : ℤ)) : ℝ) =
      (((((eloTeamNewRatings k rR sR e).sum - rR.sum : ℤ)) : ℝ) -
        (rR.length : ℝ) * (k * ((sR : ℝ) - e))) +
      (((((eloTeamNewRatings k rD (1 - sR) (1 - e)).sum - rD.sum : ℤ)) : ℝ) -
        (rD.length : ℝ) * (k * (((1 - sR : ℤ) : ℝ) - (1 - e)))) +
      ((rR.length : ℝ) * (k * ((sR : ℝ) - e)) +
        (rD.length : ℝ) * (k * (((1 - sR : ℤ) : ℝ) - (1 - e)))) := by
    push_cast
    ring
  have hreal : |(((((eloTeamNewRatings k rR sR e).sum +
      (eloTeamNewRatings k rD (1 - sR) (1 - e)).sum) - (rR.sum + rD.sum) : ℤ)) : ℝ)| ≤
      2 * (rR.length : ℝ) := by
    rw [hcast, hsum0, add_zero]
    calc |_ + _| ≤ _ + _ := abs_add _ _
      _ ≤ (rR.length : ℝ) / 2 + (rD.length : ℝ) / 2 := add_le_add hR hD
      _ ≤ 2 * (rR.length : ℝ) := by
        rw [← hlen]
        have h0 : (0 : ℝ) ≤ (rR.length : ℝ) := by positivity
        linarith
  have h2 : ((|((eloTeamNewRatings k rR sR e).sum +
      (eloTeamNewRatings k rD (1 - sR) (1 - e)).sum) - (rR.sum + rD.sum)| : ℤ) : ℝ) ≤
      ((2 * (rR.length : ℤ) : ℤ) : ℝ) := by
    rw [Int.cast_abs]
    push_cast at hreal ⊢
    exact hreal
  exact_mod_cast h2

/-- Witness for C6 at one-player teams with ratings 3000 and 2900,
K = 32, radiant win, expected score one half. -/
theorem C6_witness :
    ([(3000 : ℤ)] : List ℤ).length = ([(2900 : ℤ)] : List ℤ).length ∧
    ((([(3000 : ℤ)] : List ℤ).map (fun _ => (32 : ℝ) * (((1 : ℤ) : ℝ) - 1 / 2))).sum +
      (([(2900 : ℤ)] : List ℤ).map
        (fun _ => (32 : ℝ) * ((((1 - 1 : ℤ)) : ℝ) - (1 - 1 / 2)))).sum = 0 ∧
    |((eloTeamNewRatings 32 [3000] 1 (1 / 2)).sum +
      (eloTeamNewRatings 32 [2900] (1 - 1) (1 - 1 / 2)).sum) -
      (([(3000 : ℤ)] : List ℤ).sum + ([(2900 : ℤ)] : List ℤ).sum)| ≤
      2 * (([(3000 : ℤ)] : List ℤ).length : ℤ)) :=
  ⟨rfl, C6_elo_conservation 32 [3000] [2900] 1 (1 / 2) rfl⟩

/-- C8: on_game_started persists the match row and the per-player rows
through DBFunctions.execute, which commits after every single
statement; the write sequence therefore has a committed prefix — the
match insert alone — after which the match row exists while no player
row does.  Evaluated at a concrete two-player game: the first
committed state contains match 42 and an empty match_players table,
and the handler's store equals the fold of these separately committed
statements. -/
theorem C8_per_statement_commit :
    startedWrites bStarted 7 startInfo =
      [DBWrite.insertMatch ⟨42, 99, 2, 22, 2, 1, 5, none⟩] ++
        [DBWrite.insertMatchPlayer ⟨42, 1, 0, 1000⟩,
         DBWrite.insertMatchPlayer ⟨42, 2, 1, 1100⟩] ∧
    (([DBWrite.insertMatch ⟨42, 99, 2, 22, 2, 1, 5, none⟩].foldl applyWrite
        bStarted.db).matchRows.any (fun m => m.match_id == 42)) = true ∧
    ([DBWrite.insertMatch ⟨42, 99, 2, 22, 2, 1, 5, none⟩].foldl applyWrite
        bStarted.db).matchPlayers = [] ∧
    (onGameStarted bStarted 7 startInfo).db =
      (startedWrites bStarted 7 startInfo).foldl applyWrite bStarted.db := by
  decide

end MasterBot

namespace DotaTalker

theorem seatStep_fst (radiant dire : List ℤ) (s : ℕ × List ℤ) (m : Member) :
    (seatStep radiant dire s m).1 =
      if Seated radiant dire m then s.1 + 1 else s.1 := by
  unfold seatStep Seated
  split_ifs with h1 h2 h3 h4 <;> simp_all

theorem seatFold_fst (radiant dire : List ℤ) :
    ∀ (members : List Member) (s : ℕ × List ℤ),
      (members.foldl (seatStep radiant dire) s).1 =
        s.1 + members.countP (fun m => decide (Seated radiant dire m)) := by
  intro members
  induction members with
  | nil => intro s; simp
  | cons m t ih =>
    intro s
    rw [List.foldl_cons, ih, seatStep_fst, List.countP_cons]
    by_cases h : Seated radiant dire m
    · rw [if_pos h]
      simp [h]
      omega
    · rw [if_neg h]
      simp [h]

theorem seated_iff (radiant dire : List ℤ) (hdisj : List.Disjoint radiant dire)
    (m : Member) :
    Seated radiant dire m ↔
      ((m.mid ∈ radiant ∧ m.team = GOOD_GUYS) ∨ (m.mid ∈ dire ∧ m.team = BAD_GUYS)) := by
  unfold Seated
  constructor
  · rintro ⟨-, -, h⟩
    exact h
  · rintro (⟨hr, ht⟩ | ⟨hd, ht⟩)
    · refine ⟨?_, ?_, Or.inl ⟨hr, ht⟩⟩
      · rintro ⟨-, hne⟩
        exact hne ht
      · rintro ⟨hd, -⟩
        exact hdisj hr hd
    · refine ⟨?_, ?_, Or.inr ⟨hd, ht⟩⟩
      · rintro ⟨hr, -⟩
        exact hdisj hr hd
      · rintro ⟨-, hne⟩
        exact hne ht

theorem correctCount_eq_filter_length (radiant dire : List ℤ) (members : List Member)
    (hdisj : List.Disjoint radiant dire) :
    correctCount radiant dire members =
      (members.filter (fun m =>
        decide ((m.mid ∈ radiant ∧ m.team = GOOD_GUYS) ∨
                (m.mid ∈ dire ∧ m.team = BAD_GUYS)))).length := by
  unfold correctCount
  rw [seatFold_fst]
  simp only [Nat.zero_add]
  rw [← List.countP_eq_length_filter]
  apply List.countP_congr
  intro m hm
  simp only [decide_eq_true_eq]
  exact seated_iff radiant dire hdisj m

theorem mids_nodup (radiant dire : List ℤ) (members : List Member)
    (hnd : (members.map Member.mid).Nodup) :
    ((members.filter (fun m =>
        decide ((m.mid ∈ radiant ∧ m.team = GOOD_GUYS) ∨
                (m.mid ∈ dire ∧ m.team = BAD_GUYS)))).map Member.mid).Nodup :=
  List.Nodup.sublist (List.Sublist.map Member.mid (List.filter_sublist members)) hnd

theorem mids_subset (radiant dire : List ℤ) (members : List Member) :
    ((members.filter (fun m =>
        decide ((m.mid ∈ radiant ∧ m.team = GOOD_GUYS) ∨
                (m.mid ∈ dire ∧ m.team = BAD_GUYS)))).map Member.mid) ⊆ radiant ++ dire := by
  intro x hx
  obtain ⟨m, hmL, rfl⟩ := List.mem_map.mp hx
  obtain ⟨hmem, hpm⟩ := List.mem_filter.mp hmL
  rcases decide_eq_true_eq.mp hpm with ⟨hr, -⟩ | ⟨hd, -⟩
  · exact List.mem_append_left _ hr
  · exact List.mem_append_right _ hd

/-- C7: the UI-state lobby_changed handler launches the practice
lobby exactly when the correctly seated count equals
|radiant| + |dire|; the condition the code tests is
correct == len(radiant + dire) alone, with no total > 0 conjunct.
Amended: with duplicate-free member ids and duplicate-free, disjoint
rosters, a launch is issued iff every rostered player sits on their
assigned side — vacuously so when both rosters are empty, since the
condition contains no positivity test. -/
theorem C7_launch_iff (radiant dire : List ℤ) (members : List Member)
    (hnd : (members.map Member.mid).Nodup)
    (hrd : (radiant ++ dire).Nodup) :
    uiLaunch radiant dire members = true ↔
      ((∀ q ∈ radiant, ∃ m ∈ members, m.mid = q ∧ m.team = GOOD_GUYS) ∧
       (∀ q ∈ dire, ∃ m ∈ members, m.mid = q ∧ m.team = BAD_GUYS)) := by
  have hdisj : List.Disjoint radiant dire := (List.nodup_append.mp hrd).2.2
  have hmidnd := mids_nodup radiant dire members hnd
  have hsub := mids_subset radiant dire members
  have hcc := correctCount_eq_filter_length radiant dire members hdisj
  have hlen : ((members.filter (fun m =>
      decide ((m.mid ∈ radiant ∧ m.team = GOOD_GUYS) ∨
              (m.mid ∈ dire ∧ m.team = BAD_GUYS)))).map Member.mid).length =
      (members.filter (fun m =>
        decide ((m.mid ∈ radiant ∧ m.team = GOOD_GUYS) ∨
                (m.mid ∈ dire ∧ m.team = BAD_GUYS)))).length :=
    List.length_map _ _
  unfold uiLaunch
  rw [beq_iff_eq, hcc]
  constructor
  · intro h
    have hperm : List.Perm ((members.filter (fun m =>
        decide ((m.mid ∈ radiant ∧ m.team = GOOD_GUYS) ∨
                (m.mid ∈ dire ∧ m.team = BAD_GUYS)))).map Member.mid) (radiant ++ dire) := by
      refine (List.subperm_of_subset hmidnd hsub).perm_of_length_le ?_
      rw [hlen, h]
    have hback := hperm.symm.subset
    constructor
    · intro q hq
      have hq2 := hback (List.mem_append_left _ hq)
      obtain ⟨m, hmL, hmid⟩ := List.mem_map.mp hq2
      obtain ⟨hmem, hpm⟩ := List.mem_filter.mp hmL
      rcases decide_eq_true_eq.mp hpm with ⟨-, ht⟩ | ⟨hd, -⟩
      · exact ⟨m, hmem, hmid, ht⟩
      · exact absurd (hmid ▸ hd) (hdisj hq)
    · intro q hq
      have hq2 := hback (List.mem_append_right _ hq)
      obtain ⟨m, hmL, hmid⟩ := List.mem_map.mp hq2
      obtain ⟨hmem, hpm⟩ := List.mem_filter.mp hmL
      rcases decide_eq_true_eq.mp hpm with ⟨hr, -⟩ | ⟨-, ht⟩
      · exact absurd hq (hdisj (hmid ▸ hr))
      · exact ⟨m, hmem, hmid, ht⟩
  · rintro ⟨hA, hB⟩
    have hsub2 : radiant ++ dire ⊆ ((members.filter (fun m =>
        decide ((m.mid ∈ radiant ∧ m.team = GOOD_GUYS) ∨
                (m.mid ∈ dire ∧ m.team = BAD_GUYS)))).map Member.mid) := by
      intro x hx
      rcases List.mem_append.mp hx with hr | hd
      · obtain ⟨m, hmem, hmid, ht⟩ := hA x hr
        refine List.mem_map.mpr ⟨m, List.mem_filter.mpr ⟨hmem, ?_⟩, hmid⟩
        exact decide_eq_true_eq.mpr (Or.inl ⟨hmid ▸ hr, ht⟩)
      · obtain ⟨m, hmem, hmid, ht⟩ := hB x hd
        refine List.mem_map.mpr ⟨m, List.mem_filter.mpr ⟨hmem, ?_⟩, hmid⟩
        exact decide_eq_true_eq.mpr (Or.inr ⟨hmid ▸ hd, ht⟩)
    have hperm := (List.subperm_of_subset hmidnd hsub).antisymm
      (List.subperm_of_subset hrd hsub2)
    rw [← hlen, hperm.length_eq]

/-- Witness for C7: rosters {1} and {2}, both members seated on their
assigned sides. -/
theorem C7_witness :
    uiLaunch [1] [2] [⟨1, 0⟩, ⟨2, 1⟩] = true ↔
      ((∀ q ∈ [(1 : ℤ)], ∃ m ∈ [(⟨1, 0⟩ : Member), ⟨2, 1⟩],
          m.mid = q ∧ m.team = GOOD_GUYS) ∧
       (∀ q ∈ [(2 : ℤ)], ∃ m ∈ [(⟨1, 0⟩ : Member), ⟨2, 1⟩],
          m.mid = q ∧ m.team = BAD_GUYS)) :=
  C7_launch_iff [1] [2] [⟨1, 0⟩, ⟨2, 1⟩] (by decide) (by decide)

/-- C7 counterexample: the launch condition the handler evaluates is
correct == len(radiant + dire) and nothing else; at the input with
both rosters empty and no members it is satisfied with
|radiant| + |dire| = 0, so the condition has no total > 0 conjunct —
the claimed guard is absent from the code.  (This speaks of the
decision rule as a function of the rosters and the member list; the
running program resets the rosters to None after a game, a state this
list-valued embedding does not model.) -/
theorem C7_counterexample :
    uiLaunch [] [] [] = true ∧ (([] : List ℤ) ++ ([] : List ℤ)).length = 0 := by
  decide

end DotaTalker
